import Mathlib

/-!
Verification development for the config-store service.

The embedding models the version-derivation and recovery core of the
service (src/app/services/config.py, src/app/api/config.py,
src/app/services/github.py) over explicit character lists.  Text is
modelled as `List Char`; Python's `str.split`, `int`, `str` and the
substring test are modelled by executable functions below.
-/

set_option maxHeartbeats 1000000

/-- Text as a list of characters; a direct model of a Python `str`. -/
abbrev Str := List Char

/-- Numeric value of a decimal digit character. -/
def digVal (c : Char) : Nat := c.toNat - 48

/-- Recogniser for ASCII decimal digit characters, as accepted by Python
`int` for base-10 literals (the model is restricted to ASCII digits). -/
def isDigitCh (c : Char) : Bool := 48 ≤ c.toNat && c.toNat ≤ 57

/-- Helper for `natDecimal`: big-endian decimal digit characters of `n`,
empty for `n = 0`; `fuel` bounds the recursion depth (any `fuel ≥ n`
yields the exact digits). -/
def natDecAux : Nat → Nat → Str
  | 0, _ => []
  | fuel + 1, n => if n = 0 then [] else natDecAux fuel (n / 10) ++ [Nat.digitChar (n % 10)]

/-- Big-endian decimal digit characters of a natural number, with
`natDecimal 0 = "0"`; models Python `str` on a non-negative `int`. -/
def natDecimal (n : Nat) : Str := if n = 0 then [Char.ofNat 48] else natDecAux n n

/-- Models Python `str` on an `int`: decimal digits, with a leading `-`
for negative values. -/
def pyStrOfInt (n : Int) : Str :=
  if n < 0 then Char.ofNat 45 :: natDecimal n.natAbs else natDecimal n.toNat

/-- Whitespace stripped from both ends, as Python `int` does to its
argument before parsing. -/
def trimWS (s : Str) : Str :=
  ((s.dropWhile Char.isWhitespace).reverse.dropWhile Char.isWhitespace).reverse

/-- Parses a non-empty all-digit string as a natural number; `none`
otherwise.  Helper for `pyInt?`. -/
def parseDigits? (ds : Str) : Option Nat :=
  if ds ≠ [] ∧ ds.all isDigitCh then
    some (ds.foldl (fun a c => 10 * a + digVal c) 0)
  else none

/-- Models Python `int(s)` on a base-10 string: strips whitespace, allows
one leading sign, then requires decimal digits; `none` models the
`ValueError` Python raises otherwise.  (Underscore digit separators and
non-ASCII digits, which CPython also accepts, are outside the model; no
commit message produced by this system contains them.) -/
def pyInt? (s : Str) : Option Int :=
  match trimWS s with
  | [] => none
  | c :: rest =>
    if c = Char.ofNat 45 then (parseDigits? rest).map (fun m => -(m : Int))
    else if c = Char.ofNat 43 then (parseDigits? rest).map (fun m => (m : Int))
    else (parseDigits? (c :: rest)).map (fun m => (m : Int))

/-- Boolean list-prefix test (used to model substring search). -/
def isPre : Str → Str → Bool
  | [], _ => true
  | _ :: _, [] => false
  | a :: as, b :: bs => a = b && isPre as bs

/-- Models Python's `sep in s` substring test. -/
def containsSub (sep : Str) : Str → Bool
  | [] => sep.isEmpty
  | c :: rest => isPre sep (c :: rest) || containsSub sep rest

/-- Worker for `pySplit`.  `skip` counts characters still to be consumed
from a separator occurrence that has already been matched; a new match is
attempted only when `skip = 0`, which yields Python's left-to-right
non-overlapping occurrence semantics. -/
def splitGoS (sep : Str) : Str → Nat → List Str
  | [], _ => [[]]
  | _ :: rest, skip + 1 => splitGoS sep rest skip
  | c :: rest, 0 =>
    if isPre sep (c :: rest) then
      [] :: splitGoS sep rest (sep.length - 1)
    else
      match splitGoS sep rest 0 with
      | [] => [[c]]
      | chunk :: chunks => (c :: chunk) :: chunks

/-- Models Python `s.split(sep)` for a non-empty separator.  (Python
raises `ValueError` on an empty separator; the source only ever splits on
the non-empty literals `"[Version "` and `"]"`.) -/
def pySplit (sep s : Str) : List Str :=
  match sep with
  | [] => [s]
  | _ :: _ => splitGoS sep s 0

/-- The version-marker open token `"[Version "` searched for by
`extract_version_number` (src/app/services/config.py line 85). -/
def marker : Str := ("[Version ".data)

/-- Embedding of `extract_version_number` (src/app/services/config.py
lines 82-90): if `"[Version " in commit_message`, take
`commit_message.split("[Version ")[1].split("]")[0]` and parse it with
`int`; every failure path (the `except` clause) yields `none`, as does a
missing marker. -/
def extract_version_number (commit_message : Str) : Option Int :=
  if containsSub marker commit_message then
    match (pySplit marker commit_message).get? 1 with
    | none => none
    | some seg =>
      match (pySplit [Char.ofNat 93] seg).get? 0 with
      | none => none
      | some vs => pyInt? vs
  else none

/-- Embedding of `create_version_message` (src/app/services/config.py
lines 93-95): the f-string `"{message} [Version {version}]"`. -/
def create_version_message (message : Str) (version : Int) : Str :=
  message ++ (" [Version ".data) ++ pyStrOfInt version ++ [Char.ofNat 93]

/-- Embedding of the next-version loop shared verbatim by
`update_config` (src/app/api/config.py lines 162-167) and
`recover_config_version` (src/app/api/config.py lines 388-393): scan the
newest-first commit messages, and on the first message whose extracted
version is truthy (present and non-zero, Python `if version:`) return
that version plus one; default 1. -/
def next_version_scan : List Str → Int
  | [] => 1
  | m :: rest =>
    match extract_version_number m with
    | some v => if v = 0 then next_version_scan rest else v + 1
    | none => next_version_scan rest

/-- The next-version rule as worded by claim C1: one plus the version
extracted from the most recent (front-most) history entry for which
`extract_version_number` yields a value at all, 1 when no entry does. -/
def next_version_claimed (msgs : List Str) : Int :=
  match msgs.findSome? extract_version_number with
  | some v => v + 1
  | none => 1

/-- The next-version rule that the code actually implements, stated
declaratively: one plus the version of the most recent history entry
whose extracted version exists and is non-zero, 1 when no such entry
exists (an extracted version 0 is skipped exactly like a missing one). -/
def next_version_amended (msgs : List Str) : Int :=
  match msgs.findSome? (fun m => (extract_version_number m).filter (fun v => decide (v ≠ 0))) with
  | some v => v + 1
  | none => 1

/-- A base commit message that cannot interfere with the appended
version marker: it does not contain the marker open token `"[Version "`,
not even across the space that `create_version_message` inserts in front
of the marker (so it also does not end in `"[Version"`). -/
def goodMsg (m : Str) : Prop :=
  containsSub marker (m ++ [Char.ofNat 32]) = false

instance (m : Str) : Decidable (goodMsg m) := by
  unfold goodMsg; infer_instance

/-- One backend commit for the config path as seen through the GitHub
service: its commit message and the raw text snapshot of the file at that
commit (`github.get_file(path, ref=commit.sha)`). -/
structure Entry where
  message : Str
  content : Str
deriving DecidableEq

/-- Embedding of the target-search loop of `recover_config_version`
(src/app/api/config.py lines 370-376): the first commit, newest first,
whose extracted version equals the requested one. -/
def find_version : List Entry → Int → Option Entry
  | [], _ => none
  | e :: rest, v =>
    if extract_version_number e.message = some v then some e
    else find_version rest v

/-- Embedding of `recover_config_version` (src/app/api/config.py lines
352-415) acting on the backend history of one config path, newest first.
Returns the backend history after the call together with `some
(original_version, new_version)` on success; `none` models the
`HTTPException(404, "Version ... not found")` raised when no commit
carries the requested version, in which case no write is performed.  On
success the raw snapshot text of the target commit is written back
unchanged (the code passes `content` from `get_file` straight to
`update_file` with no parse or format step) under a commit message
tagged with the same next version the update path would use. -/
def recover_config_version (st : List Entry) (version : Int) (base : Str) :
    List Entry × Option (Int × Int) :=
  match find_version st version with
  | none => (st, none)
  | some target =>
    let next_version := next_version_scan (st.map Entry.message)
    let commit_message := create_version_message base next_version
    (⟨commit_message, target.content⟩ :: st, some (version, next_version))

/-- Embedding of `update_config` (src/app/api/config.py lines 137-191)
together with the backend's optimistic-concurrency contract.
Modelled from the spec: the GitHub backend itself is the external
collaborator; per the spec it accepts a conditional update only when the
supplied identity token still matches the object's current state, and a
mismatch surfaces as an error, never as a silent overwrite.  `stRead` is
the backend state observed by `get_file`/`get_commits` when the handler
reads, `stWrite` the state at the moment `update_file` executes (the two
differ exactly when another writer committed in between); `sha` is the
current identity token of a state.  The result is the backend state
after the call and `some next_version` on success; `none` models the
propagated `HTTPException` (the handler catches only `ValueError`, so a
rejected conditional write never produces the success response). -/
def update_config (stRead stWrite : List Entry) (shaOf : List Entry → Nat)
    (newContent base : Str) : List Entry × Option Int :=
  let file_sha := shaOf stRead
  let next_version := next_version_scan (stRead.map Entry.message)
  let commit_message := create_version_message base next_version
  if file_sha = shaOf stWrite then
    (⟨commit_message, newContent⟩ :: stWrite, some next_version)
  else
    (stWrite, none)

/-- Embedding of `create_config` (src/app/api/config.py lines 56-94)
restricted to a fresh path: the backend history it creates consists of
the single new commit, whose message is always tagged with version 1
(`create_version_message(base_message, 1)`, line 76). -/
def create_state (base content : Str) : List Entry :=
  [⟨create_version_message base 1, content⟩]

/-- One update step on a key's backend history (the successful,
conflict-free case of `update_config`): prepend the new commit, tagged
with `next_version_scan` of the existing messages, and report the
version it was tagged with. -/
def update_step (st : List Entry) (base content : Str) : List Entry × Int :=
  let v := next_version_scan (st.map Entry.message)
  (⟨create_version_message base v, content⟩ :: st, v)

/-- The versions tagged by a sequence of updates, in operation order. -/
def run_updates : List Entry → List (Str × Str) → List Int
  | _, [] => []
  | st, (base, content) :: ops =>
    (update_step st base content).2 :: run_updates (update_step st base content).1 ops

/-- The versions tagged into the commits of one create followed by a list
of updates on a fresh key, in operation order (create always tags 1). -/
def tagged_versions (base0 content0 : Str) (ops : List (Str × Str)) : List Int :=
  1 :: run_updates (create_state base0 content0) ops

/-- The list `[start, start+1, ..., start+k-1]`. -/
def rangeInt (start : Int) (k : Nat) : List Int :=
  (List.range k).map (fun i => start + Int.ofNat i)

/-- A JSON-representable Python value, restricted to the scalar fragment
the config documents use, plus the list-of-strings shape produced by the
jinja2 branch of `parse_config_content`.  Floats, nested dicts and
general lists are outside the modelled fragment. -/
inductive PyVal where
  | vstr (s : Str)
  | vint (n : Int)
  | vbool (b : Bool)
  | vnull
  | vlist (xs : List Str)
deriving DecidableEq

/-- A config document: a Python dict modelled as its key/value pairs in
insertion order. -/
abbrev Doc := List (Str × PyVal)

/-- First value stored under a key; models Python dict lookup (round-trip
documents have distinct keys). -/
def lookupDoc : Doc → Str → Option PyVal
  | [], _ => none
  | (k, v) :: rest, key => if k = key then some v else lookupDoc rest key

/-- Applies a fallible function to every element, succeeding only when
every application does (Python: a comprehension whose body may raise). -/
def mapO (f : α → Option β) : List α → Option (List β)
  | [] => some []
  | x :: xs =>
    match f x, mapO f xs with
    | some y, some ys => some (y :: ys)
    | _, _ => none

/-- Concatenation of chunks with a separator between consecutive ones. -/
def joinSep (sep : Str) : List Str → Str
  | [] => []
  | [x] => x
  | x :: y :: rest => x ++ sep ++ joinSep sep (y :: rest)

/-- Four lowercase hex digits of `n % 65536`, as in a JSON `\uXXXX`
escape emitted by `json.dumps`. -/
def hex4 (n : Nat) : Str :=
  [Nat.digitChar (n / 4096 % 16), Nat.digitChar (n / 256 % 16),
   Nat.digitChar (n / 16 % 16), Nat.digitChar (n % 16)]

/-- Escaping of one character by `json.dumps` (default `ensure_ascii`):
quote, backslash and the five short escapes, every other character in
`0x20`-`0x7e` verbatim, everything else as `\uXXXX`.  Characters beyond
the basic multilingual plane, which CPython encodes as surrogate pairs,
are outside the modelled fragment. -/
def jsonEscapeChar (c : Char) : Str :=
  if c = '"' then ['\\', '"']
  else if c = '\\' then ['\\', '\\']
  else if c = Char.ofNat 8 then ['\\', 'b']
  else if c = Char.ofNat 9 then ['\\', 't']
  else if c = Char.ofNat 10 then ['\\', 'n']
  else if c = Char.ofNat 12 then ['\\', 'f']
  else if c = Char.ofNat 13 then ['\\', 'r']
  else if 32 ≤ c.toNat ∧ c.toNat ≤ 126 then [c]
  else '\\' :: 'u' :: hex4 c.toNat

/-- A JSON string literal: quote, escaped characters, quote. -/
def jsonQuote (s : Str) : Str :=
  '"' :: (s.map jsonEscapeChar).flatten ++ ['"']

/-- Serialisation of one scalar value by `json.dumps`.  `vlist` values
(only produced by the jinja2 parse branch) are outside the modelled
fragment, although CPython would serialise them too. -/
def jsonVal? : PyVal → Option Str
  | .vstr s => some (jsonQuote s)
  | .vint n => some (pyStrOfInt n)
  | .vbool true => some ("true".data)
  | .vbool false => some ("false".data)
  | .vnull => some ("null".data)
  | .vlist _ => none

/-- Embedding of `json.dumps(data, indent=2)` as called by
`format_config_content` (src/app/services/config.py line 57) on a flat
document: `"{}"` when empty, otherwise each `"key": value` member on its
own line indented by two spaces. -/
def jsonDumps (d : Doc) : Option Str :=
  match d with
  | [] => some [Char.ofNat 123, Char.ofNat 125]
  | _ =>
    (mapO (fun kv => (jsonVal? kv.2).map (fun vs => jsonQuote kv.1 ++ (": ".data) ++ vs)) d).map
      (fun entries =>
        [Char.ofNat 123, '\n', ' ', ' '] ++ joinSep (",\n  ".data) entries
          ++ ['\n', Char.ofNat 125])

/-- The JSON whitespace characters skipped by `json.loads`. -/
def jsonWS (c : Char) : Bool := c = ' ' || c = '\n' || c = '\t' || c = Char.ofNat 13

/-- Drops leading JSON whitespace. -/
def skipWS (s : Str) : Str := s.dropWhile jsonWS

/-- Value of one hex digit character, upper or lower case. -/
def hexVal? (c : Char) : Option Nat :=
  if 48 ≤ c.toNat && c.toNat ≤ 57 then some (c.toNat - 48)
  else if 97 ≤ c.toNat && c.toNat ≤ 102 then some (c.toNat - 87)
  else if 65 ≤ c.toNat && c.toNat ≤ 70 then some (c.toNat - 55)
  else none

/-- The character denoted by a two-character JSON escape. -/
def escDecode? (e : Char) : Option Char :=
  if e = '"' then some '"'
  else if e = '\\' then some '\\'
  else if e = '/' then some '/'
  else if e = 'b' then some (Char.ofNat 8)
  else if e = 'f' then some (Char.ofNat 12)
  else if e = 'n' then some (Char.ofNat 10)
  else if e = 'r' then some (Char.ofNat 13)
  else if e = 't' then some (Char.ofNat 9)
  else none

/-- Parses the body of a JSON string literal (opening quote already
consumed) up to the closing quote; returns the decoded text and the
input after the closing quote.  Raw control characters are rejected, as
by strict-mode `json.loads`. -/
def parseJString : Str → Option (Str × Str)
  | [] => none
  | c :: rest =>
    if c = '"' then some ([], rest)
    else if c = '\\' then
      match rest with
      | [] => none
      | e :: rest2 =>
        if e = 'u' then
          match rest2 with
          | h1 :: h2 :: h3 :: h4 :: rest3 =>
            match hexVal? h1, hexVal? h2, hexVal? h3, hexVal? h4 with
            | some a, some b, some c4, some d4 =>
              (parseJString rest3).map
                (fun p => (Char.ofNat (4096 * a + 256 * b + 16 * c4 + d4) :: p.1, p.2))
            | _, _, _, _ => none
          | _ => none
        else
          match escDecode? e with
          | none => none
          | some d => (parseJString rest2).map (fun p => (d :: p.1, p.2))
    else if c.toNat < 32 then none
    else (parseJString rest).map (fun p => (c :: p.1, p.2))

/-- Numeric value of a non-empty digit string. -/
def digitsToNat (ds : Str) : Nat := ds.foldl (fun a c => 10 * a + digVal c) 0

/-- Parses a JSON integer greedily (optional minus sign, then digits) and
returns the rest of the input.  JSON's leading-zero restriction and the
float and exponent forms are not modelled; the serialiser never emits
them. -/
def parseJInt : Str → Option (Int × Str)
  | [] => none
  | c :: rest =>
    if c = '-' then
      let ds := rest.takeWhile isDigitCh
      if ds = [] then none
      else some (-(digitsToNat ds : Int), rest.dropWhile isDigitCh)
    else
      let ds := (c :: rest).takeWhile isDigitCh
      if ds = [] then none
      else some ((digitsToNat ds : Int), (c :: rest).dropWhile isDigitCh)

/-- Parses one scalar JSON value and returns the rest of the input. -/
def parseJValue (s : Str) : Option (PyVal × Str) :=
  match s with
  | [] => none
  | c :: rest =>
    if c = '"' then (parseJString rest).map (fun p => (PyVal.vstr p.1, p.2))
    else if isPre ("true".data) s then some (PyVal.vbool true, s.drop 4)
    else if isPre ("false".data) s then some (PyVal.vbool false, s.drop 5)
    else if isPre ("null".data) s then some (PyVal.vnull, s.drop 4)
    else (parseJInt s).map (fun p => (PyVal.vint p.1, p.2))

/-- Parses the members of a JSON object, positioned at the first
character of a key's string literal, through the closing brace; `fuel`
bounds the number of members. -/
def parseJMembers : Nat → Str → Doc → Option (Doc × Str)
  | 0, _, _ => none
  | fuel + 1, s, acc =>
    match s with
    | [] => none
    | c :: rest =>
      if c = '"' then
        match parseJString rest with
        | none => none
        | some (k, r1) =>
          match skipWS r1 with
          | [] => none
          | c1 :: r2 =>
            if c1 = ':' then
              match parseJValue (skipWS r2) with
              | none => none
              | some (v, r3) =>
                match skipWS r3 with
                | [] => none
                | c2 :: r4 =>
                  if c2 = Char.ofNat 125 then some (acc ++ [(k, v)], r4)
                  else if c2 = ',' then parseJMembers fuel (skipWS r4) (acc ++ [(k, v)])
                  else none
            else none
      else none

/-- Embedding of `json.loads` as called by `parse_config_content`
(src/app/services/config.py line 19), restricted to flat objects of the
modelled scalar fragment; `none` models the `JSONDecodeError` (top-level
non-objects, floats and duplicate-key collapsing are outside the
fragment). -/
def jsonLoads (s : Str) : Option Doc :=
  match skipWS s with
  | [] => none
  | c :: rest =>
    if c = Char.ofNat 123 then
      match skipWS rest with
      | [] => none
      | c2 :: r2 =>
        if c2 = Char.ofNat 125 then (if skipWS r2 = [] then some [] else none)
        else
          match parseJMembers ((c2 :: r2).length + 1) (c2 :: r2) [] with
          | none => none
          | some (d, r) => if skipWS r = [] then some d else none
    else none

/-- Characters allowed in a TOML bare key. -/
def bareKeyCh (c : Char) : Bool :=
  (65 ≤ c.toNat && c.toNat ≤ 90) || (97 ≤ c.toNat && c.toNat ≤ 122)
    || (48 ≤ c.toNat && c.toNat ≤ 57) || c = '_' || c = '-'

/-- Serialisation of one scalar value by `toml.dumps`.  Strings are
modelled for the fragment without quotes, backslashes or control
characters, where the encoder emits them verbatim between double quotes;
TOML has no null, and list values are outside the fragment. -/
def tomlVal? : PyVal → Option Str
  | .vstr s => some ('"' :: s ++ ['"'])
  | .vint n => some (pyStrOfInt n)
  | .vbool true => some ("true".data)
  | .vbool false => some ("false".data)
  | .vnull => none
  | .vlist _ => none

/-- Embedding of `toml.dumps` (src/app/services/config.py line 59) on a
flat document: one `key = value` line per entry. -/
def tomlDumps (d : Doc) : Option Str :=
  (mapO (fun kv => (tomlVal? kv.2).map (fun vs => kv.1 ++ (" = ".data) ++ vs)) d).map
    (fun lines => (lines.map (fun l => l ++ ['\n'])).flatten)

/-- Parses the value part of a TOML key/value line (the canonical forms
`toml.dumps` emits: a quoted string, `true`, `false`, or an integer). -/
def tomlValue? (s : Str) : Option PyVal :=
  match s with
  | [] => none
  | c :: rest =>
    if c = '"' then
      let body := rest.takeWhile (fun ch => ch ≠ '"')
      match rest.dropWhile (fun ch => ch ≠ '"') with
      | [] => none
      | _ :: tail => if tail = [] then some (PyVal.vstr body) else none
    else if s = ("true".data) then some (PyVal.vbool true)
    else if s = ("false".data) then some (PyVal.vbool false)
    else if c = '-' then (parseDigits? rest).map (fun m => PyVal.vint (-(m : Int)))
    else (parseDigits? s).map (fun m => PyVal.vint (m : Int))

/-- Parses one `key = value` TOML line with the canonical spacing
`toml.dumps` emits. -/
def tomlLine? (line : Str) : Option (Str × PyVal) :=
  let k := line.takeWhile bareKeyCh
  if k = [] then none
  else
    match line.dropWhile bareKeyCh with
    | c1 :: c2 :: c3 :: vs =>
      if c1 = ' ' ∧ c2 = '=' ∧ c3 = ' ' then (tomlValue? vs).map (fun v => (k, v))
      else none
    | _ => none

/-- One line-processing step of the `toml.loads` model: empty lines are
skipped, every other line must parse as a key/value pair. -/
def tomlStep (acc : Option Doc) (line : Str) : Option Doc :=
  match acc with
  | none => none
  | some d =>
    if line = [] then some d
    else
      match tomlLine? line with
      | none => none
      | some kv => some (d ++ [kv])

/-- Embedding of `toml.loads` (src/app/services/config.py line 21)
restricted to flat key/value files: one key/value pair per non-empty
line, duplicate keys rejected as the library does.  Sections, comments,
arrays and flexible spacing are outside the modelled fragment. -/
def tomlLoads (s : Str) : Option Doc :=
  match (pySplit ['\n'] s).foldl tomlStep (some []) with
  | none => none
  | some d => if (d.map Prod.fst).Nodup then some d else none

/-- Characters allowed in a modelled XML tag name (ASCII letters). -/
def xmlNameCh (c : Char) : Bool :=
  (65 ≤ c.toNat && c.toNat ≤ 90) || (97 ≤ c.toNat && c.toNat ≤ 122)

/-- Models Python `str(value)` on the scalar fragment, as applied to each
value by the XML branch of `format_config_content`
(src/app/services/config.py line 66).  Note `str(True) = "True"`,
`str(None) = "None"`; `str` of a list is outside the fragment. -/
def pyStrVal? : PyVal → Option Str
  | .vstr s => some s
  | .vint n => some (pyStrOfInt n)
  | .vbool true => some ("True".data)
  | .vbool false => some ("False".data)
  | .vnull => some ("None".data)
  | .vlist _ => none

/-- Escaping of one text character by `xml.etree.ElementTree.tostring`. -/
def xmlEscapeChar (c : Char) : Str :=
  if c = '&' then ("&amp;".data)
  else if c = '<' then ("&lt;".data)
  else if c = '>' then ("&gt;".data)
  else [c]

/-- One serialised child element: self-closing when the text is empty
(as `ElementTree` emits an element whose text is empty or unset). -/
def xmlElem (k text : Str) : Str :=
  if text = [] then '<' :: k ++ (" />".data)
  else '<' :: k ++ ['>'] ++ (text.map xmlEscapeChar).flatten ++ ("</".data) ++ k ++ ['>']

/-- Embedding of the XML branch of `format_config_content`
(src/app/services/config.py lines 62-67): a `config` root whose children
are one element per key with `str(value)` as text, serialised by
`ET.tostring`. -/
def xmlFormat (d : Doc) : Option Str :=
  (mapO (fun kv => (pyStrVal? kv.2).map (xmlElem kv.1)) d).map
    (fun elems =>
      if elems.isEmpty then ("<config />".data)
      else ("<config>".data) ++ elems.flatten ++ ("</config>".data))

/-- Decodes the three entity references `ElementTree` emits for text;
other entity forms are outside the modelled fragment. -/
def xmlUnescape : Str → Option Str
  | [] => some []
  | c :: rest =>
    if c = '&' then
      match rest with
      | [] => none
      | e1 :: r1 =>
        if e1 = 'a' then
          match r1 with
          | e2 :: e3 :: e4 :: r2 =>
            if e2 = 'm' ∧ e3 = 'p' ∧ e4 = ';' then (xmlUnescape r2).map (fun t => '&' :: t)
            else none
          | _ => none
        else if e1 = 'l' then
          match r1 with
          | e2 :: e3 :: r2 =>
            if e2 = 't' ∧ e3 = ';' then (xmlUnescape r2).map (fun t => '<' :: t)
            else none
          | _ => none
        else if e1 = 'g' then
          match r1 with
          | e2 :: e3 :: r2 =>
            if e2 = 't' ∧ e3 = ';' then (xmlUnescape r2).map (fun t => '>' :: t)
            else none
          | _ => none
        else none
    else (xmlUnescape rest).map (fun t => c :: t)

/-- Parses one child element, `<name>text</name>` or the self-closing
`<name />`; a self-closing or textless element yields `vnull`, matching
`elem.text is None` in the dict comprehension of `parse_config_content`
(src/app/services/config.py line 26). -/
def parseXChild (s : Str) : Option ((Str × PyVal) × Str) :=
  match s with
  | [] => none
  | c0 :: rest =>
    if c0 = '<' then
      let name := rest.takeWhile xmlNameCh
      if name = [] then none
      else
        match rest.dropWhile xmlNameCh with
        | [] => none
        | c1 :: r1 =>
          if c1 = ' ' then
            match r1 with
            | c2 :: c3 :: r2 =>
              if c2 = '/' ∧ c3 = '>' then some ((name, PyVal.vnull), r2) else none
            | _ => none
          else if c1 = '>' then
            let text := r1.takeWhile (fun ch => ch ≠ '<')
            match xmlUnescape text with
            | none => none
            | some t =>
              match r1.dropWhile (fun ch => ch ≠ '<') with
              | c4 :: c5 :: r4 =>
                if c4 = '<' ∧ c5 = '/' then
                  let name2 := r4.takeWhile xmlNameCh
                  if name2 = name then
                    match r4.dropWhile xmlNameCh with
                    | c6 :: r6 =>
                      if c6 = '>' then
                        some ((name, if t = [] then PyVal.vnull else PyVal.vstr t), r6)
                      else none
                    | _ => none
                  else none
                else none
              | _ => none
          else none
    else none

/-- Parses the children of the `config` root until `</config>`; `fuel`
bounds the number of children. -/
def parseXChildren : Nat → Str → Doc → Option Doc
  | 0, _, _ => none
  | fuel + 1, s, acc =>
    if isPre ("</config>".data) s then
      if s.drop 9 = [] then some acc else none
    else
      match parseXChild s with
      | none => none
      | some (kv, r) => parseXChildren fuel r (acc ++ [kv])

/-- Embedding of the XML branch of `parse_config_content`
(src/app/services/config.py lines 24-26): parse the document and map
each direct child to a `(tag, text)` pair, in document order.  The model
accepts exactly the canonical shape `ET.tostring` emits (no attributes,
prologs or inter-element whitespace) and rejects mismatched tags as the
library does; `none` models a `ParseError`. -/
def xmlParse (s : Str) : Option Doc :=
  if s = ("<config />".data) then some []
  else if isPre ("<config>".data) s then parseXChildren (s.length + 1) (s.drop 8) []
  else none

/-- The configured supported formats (src/app/core/config.py line 12).
Note yaml is parsed by `parse_config_content` but is not in this set, so
no API path reaches the yaml branch; it is left unmodelled. -/
def supported_formats : List String := ["json", "toml", "xml", "jinja2"]

/-- The `"template"` key of a jinja2 document. -/
def templateKey : Str := ("template".data)

/-- The `"variables"` key of a jinja2 document. -/
def varsKey : Str := ("variables".data)

/-- Embedding of `parse_config_content` (src/app/services/config.py
lines 15-47).  The jinja2 library is an external collaborator: its
template validation and free-variable collection are abstracted into the
parameters `jvalid` and `jvars` (the set-to-list ordering of
`find_undeclared_variables` is folded into `jvars`).  `none` models the
`HTTPException(400, ...)` raised on any parse failure, including the
final unsupported-format branch.  The yaml branch is unreachable through
the API (yaml is not in `supported_formats`) and is unmodelled. -/
def parse_config_content (jvalid : Str → Bool) (jvars : Str → List Str)
    (content : Str) (file_format : String) : Option Doc :=
  if file_format = "json" then jsonLoads content
  else if file_format = "toml" then tomlLoads content
  else if file_format = "xml" then xmlParse content
  else if file_format = "jinja2" then
    if jvalid content then
      some [(templateKey, PyVal.vstr content), (varsKey, PyVal.vlist (jvars content))]
    else none
  else none

/-- Embedding of `format_config_content` (src/app/services/config.py
lines 50-79): rejects formats outside `supported_formats`, serialises
with the matching codec, and for jinja2 requires a string `template`
field, validates it, and returns it verbatim.  `none` models the
`ValueError` raised on any failure. -/
def format_config_content (jvalid : Str → Bool) (data : Doc) (file_format : String) :
    Option Str :=
  if file_format ∈ supported_formats then
    if file_format = "json" then jsonDumps data
    else if file_format = "toml" then tomlDumps data
    else if file_format = "xml" then xmlFormat data
    else if file_format = "jinja2" then
      match lookupDoc data templateKey with
      | some (PyVal.vstr t) => if jvalid t then some t else none
      | _ => none
    else none
  else none

/-- Embedding of `list_config_versions` (src/app/api/config.py lines
279-338): `total` is the length of the full commit history, computed
before pagination; the page is the slice `[skip, min(skip+limit,
total))`; within the page an entry is dropped when its snapshot fails to
decode (the logged `except ... continue`) or when its commit message has
no extractable version. -/
def list_config_versions (jvalid : Str → Bool) (jvars : Str → List Str)
    (entries : List Entry) (file_format : String) (skip limit : Nat) :
    Nat × List (Int × Doc) :=
  let total := entries.length
  let page := (entries.drop skip).take (min (skip + limit) total - skip)
  (total,
    page.filterMap (fun e =>
      match parse_config_content jvalid jvars e.content file_format with
      | none => none
      | some d =>
        match extract_version_number e.message with
        | none => none
        | some v => some (v, d)))

/-- A string of the modelled JSON fragment: all characters in the basic
multilingual plane (CPython writes astral characters as surrogate-pair
escapes, which are outside the model). -/
def validJsonStr (s : Str) : Prop := ∀ c ∈ s, c.toNat < 65536

/-- A scalar value of the modelled JSON fragment. -/
def validJsonVal : PyVal → Prop
  | .vstr s => validJsonStr s
  | .vint _ => True
  | .vbool _ => True
  | .vnull => True
  | .vlist _ => False

/-- A valid document for the JSON codec model: a dict (distinct keys)
with BMP string keys and scalar values. -/
def validJsonDoc (d : Doc) : Prop :=
  (d.map Prod.fst).Nodup ∧ ∀ kv ∈ d, validJsonStr kv.1 ∧ validJsonVal kv.2

/-- Printable ASCII without the double quote and backslash, the string
fragment on which the TOML encoder is modelled. -/
def printableNoQuote (c : Char) : Prop :=
  32 ≤ c.toNat ∧ c.toNat ≤ 126 ∧ c.toNat ≠ 34 ∧ c.toNat ≠ 92

/-- A scalar value of the modelled TOML fragment (TOML has no null). -/
def validTomlVal : PyVal → Prop
  | .vstr s => ∀ c ∈ s, printableNoQuote c
  | .vint _ => True
  | .vbool _ => True
  | .vnull => False
  | .vlist _ => False

/-- A valid document for the TOML codec model: distinct non-empty bare
keys with scalar values of the modelled fragment. -/
def validTomlDoc (d : Doc) : Prop :=
  (d.map Prod.fst).Nodup ∧
    ∀ kv ∈ d, (kv.1 ≠ [] ∧ ∀ c ∈ kv.1, bareKeyCh c = true) ∧ validTomlVal kv.2

/-- Non-empty printable-ASCII element text, the fragment on which the
XML round-trip can hold at all (an empty text decodes to null). -/
def validXmlText (s : Str) : Prop := s ≠ [] ∧ ∀ c ∈ s, 32 ≤ c.toNat ∧ c.toNat ≤ 126

/-- A valid document for the XML round-trip: distinct letter-only tag
names and non-empty printable string values (any non-string value is
coerced through `str` on encode and decodes as a string, so it cannot
round-trip). -/
def validXmlDoc (d : Doc) : Prop :=
  (d.map Prod.fst).Nodup ∧
    ∀ kv ∈ d, (kv.1 ≠ [] ∧ ∀ c ∈ kv.1, xmlNameCh c = true) ∧
      ∃ s, kv.2 = PyVal.vstr s ∧ validXmlText s

instance (s : Str) : Decidable (validJsonStr s) := by
  unfold validJsonStr; infer_instance

instance (v : PyVal) : Decidable (validJsonVal v) := by
  cases v <;> (unfold validJsonVal; infer_instance)

instance (d : Doc) : Decidable (validJsonDoc d) := by
  unfold validJsonDoc; infer_instance

instance (c : Char) : Decidable (printableNoQuote c) := by
  unfold printableNoQuote; infer_instance

instance (v : PyVal) : Decidable (validTomlVal v) := by
  cases v <;> (unfold validTomlVal; infer_instance)

instance (d : Doc) : Decidable (validTomlDoc d) := by
  unfold validTomlDoc; infer_instance

instance (s : Str) : Decidable (validXmlText s) := by
  unfold validXmlText; infer_instance

instance (v : PyVal) : Decidable (∃ s, v = PyVal.vstr s ∧ validXmlText s) :=
  match v with
  | PyVal.vstr s =>
    if h : validXmlText s then isTrue ⟨s, rfl, h⟩
    else
      isFalse (by
        rintro ⟨s2, he, hv2⟩
        injection he with h2
        subst h2
        exact h hv2)
  | PyVal.vint _ => isFalse (by rintro ⟨s2, he, _⟩; exact PyVal.noConfusion he)
  | PyVal.vbool _ => isFalse (by rintro ⟨s2, he, _⟩; exact PyVal.noConfusion he)
  | PyVal.vnull => isFalse (by rintro ⟨s2, he, _⟩; exact PyVal.noConfusion he)
  | PyVal.vlist _ => isFalse (by rintro ⟨s2, he, _⟩; exact PyVal.noConfusion he)

instance (d : Doc) : Decidable (validXmlDoc d) := by
  unfold validXmlDoc; infer_instance

/-- The JSON text of one scalar value (total form of `jsonVal?` on the
valid fragment). -/
def jsonValStr : PyVal → Str
  | .vstr s => jsonQuote s
  | .vint n => pyStrOfInt n
  | .vbool true => ("true".data)
  | .vbool false => ("false".data)
  | .vnull => ("null".data)
  | .vlist _ => []

/-- The JSON text of one object member. -/
def jsonEntryStr (kv : Str × PyVal) : Str :=
  jsonQuote kv.1 ++ (": ".data) ++ jsonValStr kv.2

/-- The TOML text of one scalar value (total form of `tomlVal?` on the
valid fragment). -/
def tomlValStr : PyVal → Str
  | .vstr s => '"' :: s ++ ['"']
  | .vint n => pyStrOfInt n
  | .vbool true => ("true".data)
  | .vbool false => ("false".data)
  | _ => []

/-- The TOML text of one key/value line (without the newline). -/
def tomlLineStr (kv : Str × PyVal) : Str :=
  kv.1 ++ (" = ".data) ++ tomlValStr kv.2

/-- The serialised XML of one child element (total form on the valid
fragment, where every value is a string). -/
def xmlElemStr (kv : Str × PyVal) : Str :=
  match kv.2 with
  | .vstr s => xmlElem kv.1 s
  | .vint n => xmlElem kv.1 (pyStrOfInt n)
  | .vbool true => xmlElem kv.1 ("True".data)
  | .vbool false => xmlElem kv.1 ("False".data)
  | .vnull => xmlElem kv.1 ("None".data)
  | .vlist _ => []

/-! ### Decimal printing and parsing lemmas -/

theorem digitChar_spec {d : Nat} (h : d < 10) :
    isDigitCh (Nat.digitChar d) = true ∧ digVal (Nat.digitChar d) = d := by
  interval_cases d <;> exact ⟨by decide, by decide⟩

theorem natDecAux_spec : ∀ fuel n, n ≤ fuel →
    (∀ c ∈ natDecAux fuel n, isDigitCh c = true) ∧
      ∀ a, (natDecAux fuel n).foldl (fun a c => 10 * a + digVal c) a
        = a * 10 ^ (natDecAux fuel n).length + n := by
  intro fuel
  induction fuel with
  | zero =>
    intro n hn
    interval_cases n
    simp [natDecAux]
  | succ f ih =>
    intro n hn
    by_cases h0 : n = 0
    · subst h0; simp [natDecAux]
    · have hdiv : n / 10 ≤ f := by omega
      obtain ⟨hdig, hfold⟩ := ih (n / 10) hdiv
      have hd : n % 10 < 10 := Nat.mod_lt _ (by norm_num)
      obtain ⟨hdc, hdv⟩ := digitChar_spec hd
      constructor
      · intro c hc
        simp only [natDecAux, if_neg h0, List.mem_append, List.mem_singleton] at hc
        rcases hc with hc | hc
        · exact hdig c hc
        · subst hc; exact hdc
      · intro a
        simp only [natDecAux, if_neg h0]
        rw [List.foldl_append]
        simp only [List.foldl_cons, List.foldl_nil, hfold, hdv, List.length_append,
          List.length_singleton]
        have hmod : 10 * (n / 10) + n % 10 = n := by omega
        have hpow : 10 ^ ((natDecAux f (n / 10)).length + 1)
            = 10 ^ (natDecAux f (n / 10)).length * 10 := by
          rw [pow_succ]
        rw [hpow]
        set K := 10 ^ (natDecAux f (n / 10)).length with hK
        have : a * (K * 10) = a * K * 10 := by ring
        rw [this]
        omega

theorem natDecimal_digits (n : Nat) : ∀ c ∈ natDecimal n, isDigitCh c = true := by
  unfold natDecimal
  by_cases h : n = 0
  · subst h; intro c hc; simp at hc; subst hc; decide
  · rw [if_neg h]; exact (natDecAux_spec n n le_rfl).1

theorem natDecimal_ne_nil (n : Nat) : natDecimal n ≠ [] := by
  unfold natDecimal
  by_cases h : n = 0
  · subst h; simp
  · rw [if_neg h]
    cases n with
    | zero => exact absurd rfl h
    | succ m =>
      simp only [natDecAux, Nat.succ_ne_zero, if_neg]
      simp

theorem parseDigits?_natDecimal (n : Nat) : parseDigits? (natDecimal n) = some n := by
  unfold parseDigits?
  rw [if_pos]
  · by_cases h : n = 0
    · subst h; simp [natDecimal]; decide
    · have := (natDecAux_spec n n le_rfl).2 0
      simp only [natDecimal, if_neg h]
      rw [this]
      simp
  · refine ⟨natDecimal_ne_nil n, ?_⟩
    rw [List.all_eq_true]
    exact natDecimal_digits n

theorem ws_toNat {c : Char} (h : c.isWhitespace = true) :
    c.toNat = 32 ∨ c.toNat = 9 ∨ c.toNat = 13 ∨ c.toNat = 10 := by
  simp only [Char.isWhitespace, Bool.or_eq_true, decide_eq_true_eq] at h
  rcases h with ((h | h) | h) | h <;> subst h <;> decide

theorem notWS {c : Char} (h32 : c.toNat ≠ 32) (h9 : c.toNat ≠ 9) (h13 : c.toNat ≠ 13)
    (h10 : c.toNat ≠ 10) : c.isWhitespace = false := by
  cases hw : c.isWhitespace
  · rfl
  · rcases ws_toNat hw with h | h | h | h <;> omega

theorem isDigitCh_toNat {c : Char} (h : isDigitCh c = true) :
    48 ≤ c.toNat ∧ c.toNat ≤ 57 := by
  simpa [isDigitCh, Bool.and_eq_true, decide_eq_true_eq] using h

theorem dropWhile_eq_self {p : Char → Bool} {s : Str} (h : ∀ c ∈ s, p c = false) :
    s.dropWhile p = s := by
  cases s with
  | nil => rfl
  | cons c rest =>
    rw [List.dropWhile_cons, if_neg]
    simp [h c (List.mem_cons_self c rest)]

theorem trimWS_eq_self {s : Str} (h : ∀ c ∈ s, c.isWhitespace = false) : trimWS s = s := by
  unfold trimWS
  rw [dropWhile_eq_self h, dropWhile_eq_self, List.reverse_reverse]
  intro c hc
  exact h c (List.mem_reverse.mp hc)

theorem char_toNat_45 : (Char.ofNat 45).toNat = 45 := by decide

theorem char_toNat_43 : (Char.ofNat 43).toNat = 43 := by decide

theorem char_ne_of_toNat {c d : Char} (h : c.toNat ≠ d.toNat) : c ≠ d := by
  intro he; exact h (he ▸ rfl)

theorem pyInt?_pyStrOfInt (n : Int) : pyInt? (pyStrOfInt n) = some n := by
  by_cases hn : n < 0
  · have hs : pyStrOfInt n = Char.ofNat 45 :: natDecimal n.natAbs := by
      unfold pyStrOfInt; rw [if_pos hn]
    have htrim : trimWS (pyStrOfInt n) = Char.ofNat 45 :: natDecimal n.natAbs := by
      rw [hs]
      apply trimWS_eq_self
      intro c hc
      rcases List.mem_cons.mp hc with h | h
      · subst h; decide
      · have := isDigitCh_toNat (natDecimal_digits _ c h)
        exact notWS (by omega) (by omega) (by omega) (by omega)
    rw [pyInt?.eq_def, htrim]
    dsimp only
    rw [if_pos rfl, parseDigits?_natDecimal]
    have habs : ((n.natAbs : Nat) : Int) = -n := by omega
    simp [habs]
  · have hs : pyStrOfInt n = natDecimal n.toNat := by
      unfold pyStrOfInt; rw [if_neg hn]
    obtain ⟨c, rest, hcr⟩ := List.exists_cons_of_ne_nil (natDecimal_ne_nil n.toNat)
    have hdigc : isDigitCh c = true := by
      apply natDecimal_digits n.toNat c
      rw [hcr]; exact List.mem_cons_self c rest
    have hb := isDigitCh_toNat hdigc
    have htrim : trimWS (pyStrOfInt n) = c :: rest := by
      rw [hs, hcr]
      apply trimWS_eq_self
      intro x hx
      have := isDigitCh_toNat (natDecimal_digits n.toNat x (by rw [hcr]; exact hx))
      exact notWS (by omega) (by omega) (by omega) (by omega)
    rw [pyInt?.eq_def, htrim]
    dsimp only
    rw [if_neg (char_ne_of_toNat (by rw [char_toNat_45]; omega)),
      if_neg (char_ne_of_toNat (by rw [char_toNat_43]; omega))]
    rw [← hcr, parseDigits?_natDecimal]
    have habs : ((n.toNat : Nat) : Int) = n := Int.toNat_of_nonneg (not_lt.mp hn)
    simp [habs]

/-! ### Split machinery lemmas -/

theorem isPre_iff : ∀ s t : Str, isPre s t = true ↔ ∃ u, t = s ++ u := by
  intro s
  induction s with
  | nil => intro t; simp [isPre]
  | cons a as ih =>
    intro t
    cases t with
    | nil => simp [isPre]
    | cons b bs =>
      simp only [isPre, Bool.and_eq_true, decide_eq_true_eq]
      constructor
      · rintro ⟨rfl, h⟩
        obtain ⟨u, rfl⟩ := (ih bs).mp h
        exact ⟨u, rfl⟩
      · rintro ⟨u, hu⟩
        injection hu with h1 h2
        exact ⟨h1.symm, (ih bs).mpr ⟨u, h2⟩⟩

theorem isPre_append (s u : Str) : isPre s (s ++ u) = true :=
  (isPre_iff s _).mpr ⟨u, rfl⟩

theorem containsSub_iff (sep : Str) : ∀ l, containsSub sep l = true ↔ ∃ u v, l = u ++ sep ++ v := by
  intro l
  induction l with
  | nil =>
    cases sep with
    | nil => simp [containsSub, List.isEmpty]
    | cons a as => simp [containsSub, List.isEmpty]
  | cons c rest ih =>
    simp only [containsSub, Bool.or_eq_true, ih, isPre_iff]
    constructor
    · rintro (⟨u, hu⟩ | ⟨u, v, rfl⟩)
      · exact ⟨[], u, by simpa using hu⟩
      · exact ⟨c :: u, v, by simp⟩
    · rintro ⟨u, v, huv⟩
      cases u with
      | nil => left; exact ⟨v, by simpa using huv⟩
      | cons x xs =>
        right
        injection huv with h1 h2
        exact ⟨xs, v, h2⟩

theorem splitGoS_ne_nil (sep : Str) : ∀ s k, splitGoS sep s k ≠ [] := by
  intro s
  induction s with
  | nil => intro k; cases k <;> simp [splitGoS]
  | cons c rest ih =>
    intro k
    cases k with
    | succ k => simpa [splitGoS] using ih k
    | zero =>
      simp only [splitGoS]
      split
      · simp
      · split <;> simp

theorem splitGoS_skip (sep : Str) : ∀ pre rest, splitGoS sep (pre ++ rest) pre.length = splitGoS sep rest 0 := by
  intro pre
  induction pre with
  | nil => intro rest; simp
  | cons c pre ih => intro rest; simpa [splitGoS] using ih rest

theorem splitGoS_sep_head (s0 : Char) (sp rest : Str) :
    splitGoS (s0 :: sp) ((s0 :: sp) ++ rest) 0 = [] :: splitGoS (s0 :: sp) rest 0 := by
  have hpre : isPre (s0 :: sp) (s0 :: (sp ++ rest)) = true := by
    simpa using isPre_append (s0 :: sp) rest
  rw [List.cons_append]
  simp only [splitGoS]
  rw [if_pos hpre]
  congr 1
  have hlen : (s0 :: sp).length - 1 = sp.length := by simp
  rw [hlen, splitGoS_skip]

theorem splitGoS_chunk (s0 : Char) (sp : Str) :
    ∀ pre tail, (∀ p₁ p₂ : Str, pre = p₁ ++ p₂ → p₂ ≠ [] → isPre (s0 :: sp) (p₂ ++ tail) = false) →
    splitGoS (s0 :: sp) (pre ++ tail) 0 =
      match splitGoS (s0 :: sp) tail 0 with
      | [] => [pre]
      | chunk :: chunks => (pre ++ chunk) :: chunks := by
  intro pre
  induction pre with
  | nil =>
    intro tail h
    cases hsp : splitGoS (s0 :: sp) tail 0 with
    | nil => exact absurd hsp (splitGoS_ne_nil _ _ _)
    | cons chunk chunks => simp [hsp]
  | cons c pre ih =>
    intro tail h
    have hc : isPre (s0 :: sp) (c :: (pre ++ tail)) = false := by
      simpa using h [] (c :: pre) rfl (by simp)
    rw [List.cons_append]
    simp only [splitGoS]
    rw [if_neg (by simp [hc])]
    rw [ih tail (fun p₁ p₂ hp hne => h (c :: p₁) p₂ (by rw [hp]; rfl) hne)]
    cases hsp : splitGoS (s0 :: sp) tail 0 with
    | nil => exact absurd hsp (splitGoS_ne_nil _ _ _)
    | cons chunk chunks => simp

theorem splitGoS_no_head (s0 : Char) (sp : Str) :
    ∀ l, (∀ c ∈ l, c ≠ s0) → splitGoS (s0 :: sp) l 0 = [l] := by
  intro l
  induction l with
  | nil => intro _; simp [splitGoS]
  | cons c rest ih =>
    intro h
    have hne : (decide (s0 = c)) = false := by
      simp only [decide_eq_false_iff_not]
      exact fun he => (h c (List.mem_cons_self c rest)) he.symm
    have hc : isPre (s0 :: sp) (c :: rest) = false := by
      simp [isPre, hne]
    simp only [splitGoS]
    rw [if_neg (by simp [hc])]
    rw [ih (fun x hx => h x (List.mem_cons_of_mem c hx))]

/-! ### Marker extraction lemmas -/

theorem marker_cons : marker = Char.ofNat 91 :: ("Version ".data) := by decide

theorem marker_length : marker.length = 9 := by decide

theorem marker_no_overlap : ∀ k, 1 ≤ k → k < 9 → ¬ marker.take (9 - k) = marker.drop k := by
  intro k h1 h9
  interval_cases k <;> decide

theorem pySplit_eq_splitGoS {sep : Str} (h : sep ≠ []) (s : Str) :
    pySplit sep s = splitGoS sep s 0 := by
  cases sep with
  | nil => exact absurd rfl h
  | cons a as => rfl

theorem marker_chunk_hyp {msgSp : Str} (hmsg : containsSub marker msgSp = false) (ds2 : Str) :
    ∀ p₁ p₂ : Str, msgSp = p₁ ++ p₂ → p₂ ≠ [] →
      isPre marker (p₂ ++ (marker ++ ds2)) = false := by
  intro p₁ p₂ hdec hne
  cases hip : isPre marker (p₂ ++ (marker ++ ds2)) with
  | false => rfl
  | true =>
    exfalso
    obtain ⟨u, hu⟩ := (isPre_iff _ _).mp hip
    by_cases hk : 9 ≤ p₂.length
    · -- the alleged occurrence lies inside `msgSp`
      have htake : (p₂ ++ (marker ++ ds2)).take 9 = p₂.take 9 := by
        rw [List.take_append_eq_append_take]
        have : 9 - p₂.length = 0 := by omega
        rw [this]
        simp
      have htake2 : (marker ++ u).take 9 = marker := by
        have h9 : (9 : Nat) = marker.length := marker_length.symm
        rw [h9, List.take_left]
      have hpre : p₂.take 9 = marker := by rw [← htake, hu, htake2]
      have hdecomp : p₂ = marker ++ p₂.drop 9 := by
        conv_lhs => rw [← List.take_append_drop 9 p₂]
        rw [hpre]
      have : containsSub marker msgSp = true := by
        rw [containsSub_iff]
        refine ⟨p₁, p₂.drop 9, ?_⟩
        rw [hdec]
        conv_lhs => rw [hdecomp]
        simp [List.append_assoc]
      rw [this] at hmsg
      exact Bool.noConfusion hmsg
    · -- the alleged occurrence straddles into the appended marker
      push_neg at hk
      have hk1 : 1 ≤ p₂.length := by
        cases p₂ with
        | nil => exact absurd rfl hne
        | cons x xs => simp
      have htake : (p₂ ++ (marker ++ ds2)).take 9 = p₂ ++ marker.take (9 - p₂.length) := by
        rw [List.take_append_eq_append_take]
        congr 1
        · exact List.take_of_length_le (by omega)
        · rw [List.take_append_eq_append_take]
          have : 9 - p₂.length - marker.length = 0 := by rw [marker_length]; omega
          rw [this]
          simp
      have htake2 : (marker ++ u).take 9 = marker := by
        have h9 : (9 : Nat) = marker.length := marker_length.symm
        rw [h9, List.take_left]
      have heq : p₂ ++ marker.take (9 - p₂.length) = marker := by
        rw [← htake, hu, htake2]
      have hdrop : marker.take (9 - p₂.length) = marker.drop p₂.length := by
        conv_rhs => rw [← heq]
        rw [List.drop_append_eq_append_drop]
        simp
      exact marker_no_overlap p₂.length hk1 (by omega) hdrop

theorem pyStrOfInt_chars (n : Int) : ∀ c ∈ pyStrOfInt n, c.toNat = 45 ∨ isDigitCh c = true := by
  intro c hc
  unfold pyStrOfInt at hc
  by_cases hn : n < 0
  · rw [if_pos hn] at hc
    rcases List.mem_cons.mp hc with h | h
    · subst h; left; decide
    · right; exact natDecimal_digits _ c h
  · rw [if_neg hn] at hc
    right; exact natDecimal_digits _ c hc

theorem splitGoS_marker_create (msg ds2 : Str)
    (hmsg : containsSub marker (msg ++ [Char.ofNat 32]) = false) :
    splitGoS marker ((msg ++ [Char.ofNat 32]) ++ (marker ++ ds2)) 0
      = (msg ++ [Char.ofNat 32]) :: splitGoS marker ds2 0 := by
  rw [marker_cons]
  rw [splitGoS_chunk (Char.ofNat 91) ("Version ".data) (msg ++ [Char.ofNat 32]) _
    (by rw [← marker_cons]; exact marker_chunk_hyp hmsg ds2)]
  rw [show ((Char.ofNat 91 :: ("Version ".data)) ++ ds2 : Str)
      = (Char.ofNat 91 :: ("Version ".data)) ++ ds2 from rfl]
  rw [splitGoS_sep_head]
  simp

theorem extract_create {msg : Str} (v : Int) (h : goodMsg msg) :
    extract_version_number (create_version_message msg v) = some v := by
  have hfull : create_version_message msg v
      = (msg ++ [Char.ofNat 32]) ++ (marker ++ (pyStrOfInt v ++ [Char.ofNat 93])) := by
    unfold create_version_message
    have hsp : (" [Version ".data : Str) = Char.ofNat 32 :: marker := by decide
    rw [hsp]
    simp
  have hds : ∀ c ∈ pyStrOfInt v ++ [Char.ofNat 93], c ≠ Char.ofNat 91 := by
    intro c hc
    rcases List.mem_append.mp hc with h1 | h1
    · rcases pyStrOfInt_chars v c h1 with h2 | h2
      · exact char_ne_of_toNat (by rw [h2]; decide)
      · have := isDigitCh_toNat h2
        exact char_ne_of_toNat (by rw [show (Char.ofNat 91).toNat = 91 from by decide]; omega)
    · rw [List.mem_singleton.mp h1]; decide
  have hcs : containsSub marker (create_version_message msg v) = true := by
    rw [hfull, containsSub_iff]
    exact ⟨msg ++ [Char.ofNat 32], pyStrOfInt v ++ [Char.ofNat 93], by simp⟩
  have hsplit1 : pySplit marker (create_version_message msg v)
      = [msg ++ [Char.ofNat 32], pyStrOfInt v ++ [Char.ofNat 93]] := by
    rw [pySplit_eq_splitGoS (by decide), hfull, splitGoS_marker_create _ _ h]
    congr 1
    rw [marker_cons]
    apply splitGoS_no_head
    intro c hc
    exact hds c hc
  have hsplit2 : pySplit [Char.ofNat 93] (pyStrOfInt v ++ [Char.ofNat 93])
      = [pyStrOfInt v, []] := by
    rw [pySplit_eq_splitGoS (by decide)]
    rw [splitGoS_chunk (Char.ofNat 93) [] (pyStrOfInt v) [Char.ofNat 93] ?hyp]
    case hyp =>
      intro p₁ p₂ hdec hne
      cases p₂ with
      | nil => exact absurd rfl hne
      | cons x xs =>
        have hx : x ∈ pyStrOfInt v := by
          rw [hdec]; exact List.mem_append_right p₁ (List.mem_cons_self x xs)
        have hxne : (decide (Char.ofNat 93 = x)) = false := by
          simp only [decide_eq_false_iff_not]
          intro he
          rcases pyStrOfInt_chars v x hx with h2 | h2
          · rw [← he] at h2; exact absurd h2 (by decide)
          · have := isDigitCh_toNat h2
            rw [← he] at this
            exact absurd this (by decide)
        simp [isPre, hxne]
    rw [show splitGoS [Char.ofNat 93] [Char.ofNat 93] 0 = [[], []] from by decide]
    simp
  unfold extract_version_number
  rw [if_pos hcs, hsplit1]
  simp only [List.get?_cons_succ, List.get?_cons_zero]
  rw [hsplit2]
  simp only [List.get?_cons_zero]
  exact pyInt?_pyStrOfInt v

/-! ### Version scan lemmas -/

theorem next_version_amended_cons (m : Str) (rest : List Str) :
    next_version_amended (m :: rest)
      = match (extract_version_number m).filter (fun v => decide (v ≠ 0)) with
        | some v => v + 1
        | none => next_version_amended rest := by
  unfold next_version_amended
  rw [List.findSome?_cons]
  cases h : ((extract_version_number m).filter (fun v => decide (v ≠ 0))) with
  | some v => simp [h]
  | none => simp [h]

theorem next_version_scan_eq_amended : ∀ msgs, next_version_scan msgs = next_version_amended msgs := by
  intro msgs
  induction msgs with
  | nil => rfl
  | cons m rest ih =>
    have hstep : next_version_scan (m :: rest)
        = match extract_version_number m with
          | some v => if v = 0 then next_version_scan rest else v + 1
          | none => next_version_scan rest := rfl
    rw [hstep, next_version_amended_cons]
    cases he : extract_version_number m with
    | none => simpa [Option.filter] using ih
    | some v =>
      by_cases hv : v = 0
      · subst hv
        simpa [Option.filter] using ih
      · simp [Option.filter, hv]

theorem rangeInt_succ (v : Int) (k : Nat) : rangeInt v (k + 1) = v :: rangeInt (v + 1) k := by
  unfold rangeInt
  rw [List.range_succ_eq_map]
  simp only [List.map_cons, List.map_map]
  congr 1
  · simp
  · apply List.map_congr_left
    intro i _
    simp only [Function.comp_apply, Nat.succ_eq_add_one, Int.ofNat_eq_coe]
    push_cast
    ring

theorem run_updates_range : ∀ (ops : List (Str × Str)) (st : List Entry) (v : Int),
    (∀ op ∈ ops, goodMsg op.1) → next_version_scan (st.map Entry.message) = v → 0 < v →
    run_updates st ops = rangeInt v ops.length := by
  intro ops
  induction ops with
  | nil =>
    intro st v _ _ _
    simp [run_updates, rangeInt]
  | cons op ops ih =>
    intro st v hgood hscan hv
    obtain ⟨b, content⟩ := op
    have hb : goodMsg b := hgood (b, content) (List.mem_cons_self _ _)
    simp only [run_updates, update_step, hscan]
    rw [List.length_cons, rangeInt_succ]
    congr 1
    apply ih _ (v + 1) (fun x hx => hgood x (List.mem_cons_of_mem _ hx)) ?_ (by omega)
    show next_version_scan (create_version_message b v :: st.map Entry.message) = v + 1
    have : next_version_scan (create_version_message b v :: st.map Entry.message)
        = match extract_version_number (create_version_message b v) with
          | some w => if w = 0 then next_version_scan (st.map Entry.message) else w + 1
          | none => next_version_scan (st.map Entry.message) := rfl
    rw [this, extract_create v hb]
    simp only [if_neg (by omega : ¬ v = 0)]

/-! ### Recover and find lemmas -/

theorem find_version_first : ∀ (st : List Entry) (v : Int),
    (∃ e ∈ st, extract_version_number e.message = some v) →
    ∃ pre e post, st = pre ++ e :: post
      ∧ (∀ x ∈ pre, extract_version_number x.message ≠ some v)
      ∧ extract_version_number e.message = some v
      ∧ find_version st v = some e := by
  intro st
  induction st with
  | nil => intro v h; simp at h
  | cons e0 rest ih =>
    intro v h
    by_cases he : extract_version_number e0.message = some v
    · exact ⟨[], e0, rest, rfl, by simp, he, by simp [find_version, he]⟩
    · have hrest : ∃ e ∈ rest, extract_version_number e.message = some v := by
        obtain ⟨e, hmem, hex⟩ := h
        rcases List.mem_cons.mp hmem with h1 | h1
        · subst h1; exact absurd hex he
        · exact ⟨e, h1, hex⟩
      obtain ⟨pre, e, post, hdec, hpre, hex, hfind⟩ := ih v hrest
      refine ⟨e0 :: pre, e, post, by rw [hdec]; rfl, ?_, hex, by simp [find_version, he, hfind]⟩
      intro x hx
      rcases List.mem_cons.mp hx with h1 | h1
      · subst h1; exact he
      · exact hpre x h1

theorem find_version_eq_none : ∀ (st : List Entry) (v : Int),
    (∀ e ∈ st, extract_version_number e.message ≠ some v) → find_version st v = none := by
  intro st
  induction st with
  | nil => intro v _; rfl
  | cons e0 rest ih =>
    intro v h
    simp only [find_version]
    rw [if_neg (h e0 (List.mem_cons_self _ _))]
    exact ih v (fun e he => h e (List.mem_cons_of_mem _ he))

/-! ### Claim theorems -/

/-- C1 counterexample: on a history whose most recent entry carrying a
version tag is tagged `[Version 0]`, the code's next-version scan (which
skips the 0-tagged entry and consults the older `[Version 5]` entry,
yielding 6) disagrees with the claimed rule (version of the most recent
tagged entry plus one, i.e. 1), so the claim as stated is false. -/
theorem claim_C1_counterexample :
    next_version_scan [("a [Version 0]".data), ("b [Version 5]".data)]
      ≠ next_version_claimed [("a [Version 0]".data), ("b [Version 5]".data)] := by
  decide

/-- C1 amended: for every update of an existing config, the version
tagged into the new commit is (the version of the most recent history
entry whose extracted version exists and is non-zero) + 1, with an
extracted version 0 skipped exactly like an untagged entry, and 1 when
no such entry exists; entries older than that entry are never consulted.
`next_version_scan` is the loop of `update_config` (src/app/api/config.py
lines 162-167). -/
theorem claim_C1 (msgs : List Str) : next_version_scan msgs = next_version_amended msgs :=
  next_version_scan_eq_amended msgs

/-- C2 counterexample: a caller-supplied create message containing the
marker token makes the first update read version 7 out of the create
commit's message, so the tagged versions are `[1, 8]`, not `[1, 2]`; the
claim as stated (for every choice of commit messages) is false. -/
theorem claim_C2_counterexample :
    tagged_versions ("e [Version 7]".data) ("c".data) [(("u".data), ("c".data))]
      ≠ rangeInt 1 2 := by
  decide

/-- C2 amended: for one create followed by any number of updates on a
fresh key, the versions tagged into the commits are exactly 1, 2, 3, ...,
provided every caller-supplied base message neither contains the marker
open token `"[Version "` nor ends in `"[Version"` (so that the appended
marker is the first one in the commit message). -/
theorem claim_C2 (base0 content0 : Str) (ops : List (Str × Str))
    (h0 : goodMsg base0) (hops : ∀ op ∈ ops, goodMsg op.1) :
    tagged_versions base0 content0 ops = rangeInt 1 (ops.length + 1) := by
  unfold tagged_versions
  rw [rangeInt_succ]
  congr 1
  apply run_updates_range ops _ 2 hops ?_ (by norm_num)
  show next_version_scan [create_version_message base0 1] = 2
  have hstep : next_version_scan [create_version_message base0 1]
      = match extract_version_number (create_version_message base0 1) with
        | some w => if w = 0 then next_version_scan [] else w + 1
        | none => next_version_scan [] := rfl
  rw [hstep, extract_create 1 h0]
  norm_num

/-- C2 witness at a concrete create/update pair with plain messages. -/
theorem claim_C2_witness :
    goodMsg ("init".data) ∧ (∀ op ∈ [(("upd".data : Str), ("c2".data : Str))], goodMsg op.1) ∧
    tagged_versions ("init".data) ("c1".data) [(("upd".data), ("c2".data))] = rangeInt 1 2 :=
  ⟨by decide, by decide, claim_C2 _ _ _ (by decide) (by decide)⟩

/-- C3: when some history entry is tagged with the requested version,
recovery finds the first (newest-first) entry so tagged, writes its raw
snapshot back byte-for-byte as a new commit tagged with the same next
version the update path computes, and leaves the prior history (the
original entry included) intact below the new commit. -/
theorem claim_C3 (st : List Entry) (v : Int) (base : Str)
    (h : ∃ e ∈ st, extract_version_number e.message = some v) :
    ∃ pre e post, st = pre ++ e :: post
      ∧ (∀ x ∈ pre, extract_version_number x.message ≠ some v)
      ∧ extract_version_number e.message = some v
      ∧ recover_config_version st v base
        = (⟨create_version_message base (next_version_scan (st.map Entry.message)),
            e.content⟩ :: st,
           some (v, next_version_scan (st.map Entry.message))) := by
  obtain ⟨pre, e, post, hdec, hpre, hex, hfind⟩ := find_version_first st v h
  refine ⟨pre, e, post, hdec, hpre, hex, ?_⟩
  unfold recover_config_version
  rw [hfind]

/-- C3 witness at a one-entry history tagged with version 1. -/
theorem claim_C3_witness :
    ∃ pre e post,
      [Entry.mk ("m [Version 1]".data) ("c1".data)] = pre ++ e :: post
      ∧ (∀ x ∈ pre, extract_version_number x.message ≠ some 1)
      ∧ extract_version_number e.message = some 1
      ∧ recover_config_version [Entry.mk ("m [Version 1]".data) ("c1".data)] 1 ("b".data)
        = (⟨create_version_message ("b".data)
              (next_version_scan ([Entry.mk ("m [Version 1]".data) ("c1".data)].map Entry.message)),
            e.content⟩ :: [Entry.mk ("m [Version 1]".data) ("c1".data)],
           some (1, next_version_scan ([Entry.mk ("m [Version 1]".data) ("c1".data)].map Entry.message))) :=
  claim_C3 _ 1 _ ⟨Entry.mk ("m [Version 1]".data) ("c1".data), by simp, by decide⟩

/-- C4: when no history entry of the config carries the requested
version tag, recovery fails (the 404 VersionNotFound path) and the
backend state is unchanged — the failure is raised before any write. -/
theorem claim_C4 (st : List Entry) (v : Int) (base : Str)
    (h : ∀ e ∈ st, extract_version_number e.message ≠ some v) :
    recover_config_version st v base = (st, none) := by
  unfold recover_config_version
  rw [find_version_eq_none st v h]

/-- C4 witness: requesting version 2 on a history that only has
version 1 mutates nothing and reports no success. -/
theorem claim_C4_witness :
    recover_config_version [Entry.mk ("m [Version 1]".data) ("c1".data)] 2 ("b".data)
      = ([Entry.mk ("m [Version 1]".data) ("c1".data)], none) :=
  claim_C4 _ 2 _ (by decide)

/-- C5 counterexample: the message `"foo[Version"` does not contain the
marker open token `"[Version "`, yet tagging it makes the marker
straddle the inserted space, extraction fails (`none`), and the
round-trip law `untag (tag msg n) = n` is violated. -/
theorem claim_C5_counterexample :
    containsSub marker ("foo[Version".data) = false ∧
    extract_version_number (create_version_message ("foo[Version".data) 5) ≠ some 5 := by
  decide

/-- C5 amended: `untag (tag msg n) = n` for every non-negative `n` and
every message that neither contains `"[Version "` nor ends in
`"[Version"` (the condition `goodMsg`, which also excludes the straddle
across the space inserted in front of the marker). -/
theorem claim_C5 (msg : Str) (n : Int) (hn : 0 ≤ n) (h : goodMsg msg) :
    extract_version_number (create_version_message msg n) = some n :=
  extract_create n h

/-- C5 witness at a plain message and version 7. -/
theorem claim_C5_witness :
    (0 : Int) ≤ 7 ∧ goodMsg ("update config".data) ∧
    extract_version_number (create_version_message ("update config".data) 7) = some 7 :=
  ⟨by decide, by decide, claim_C5 _ 7 (by decide) (by decide)⟩

/-- C6: `extract_version_number` is total — on every commit message it
returns either an integer or `none` (the Python `try`/`except` is
modelled by the `none` fallbacks, so no exception escapes), and in
particular a message without the marker yields `none` rather than an
error. -/
theorem claim_C6 (msg : Str) :
    (extract_version_number msg = none ∨ ∃ n : Int, extract_version_number msg = some n) ∧
    (containsSub marker msg = false → extract_version_number msg = none) := by
  constructor
  · cases h : extract_version_number msg with
    | none => exact Or.inl rfl
    | some v => exact Or.inr ⟨v, rfl⟩
  · intro h
    unfold extract_version_number
    rw [if_neg (by simp [h])]

/-- C6 witness: a marker-free manual commit message extracts to `none`. -/
theorem claim_C6_witness :
    containsSub marker ("deploy prod".data) = false ∧
    extract_version_number ("deploy prod".data) = none :=
  ⟨by decide, (claim_C6 ("deploy prod".data)).2 (by decide)⟩

/-- C8: for every history and every valid pagination window, the `total`
returned by the version listing equals the number of all history entries
for the path — computed before the page is cut and before untaggable or
undecodable entries are dropped — not the number of entries in the
returned page. -/
theorem claim_C8 (jvalid : Str → Bool) (jvars : Str → List Str) (entries : List Entry)
    (file_format : String) (skip limit : Nat) (h1 : 1 ≤ limit) (h2 : limit ≤ 100) :
    (list_config_versions jvalid jvars entries file_format skip limit).1 = entries.length :=
  rfl

/-- C8 witness: two history entries, one of them untaggable, with a
one-entry page: `total` is still 2. -/
theorem claim_C8_witness :
    (list_config_versions (fun _ => true) (fun _ => [])
      [Entry.mk ("m [Version 1]".data) ("\x7b\x7d".data), Entry.mk ("manual commit".data) ("\x7b\x7d".data)]
      "json" 0 1).1
      = [Entry.mk ("m [Version 1]".data) ("\x7b\x7d".data), Entry.mk ("manual commit".data) ("\x7b\x7d".data)].length :=
  claim_C8 (fun _ => true) (fun _ => []) _ "json" 0 1 (by decide) (by decide)

/-- C9: an update whose optimistic-concurrency token is stale (the
backend state changed between the read and the conditional write) fails
with an error and never produces the success response, and the other
writer's state is left untouched — the backend's conditional-write
contract plus the handler's propagation of the resulting exception. -/
theorem claim_C9 (stRead stWrite : List Entry) (shaOf : List Entry → Nat)
    (newContent base : Str) (h : shaOf stRead ≠ shaOf stWrite) :
    update_config stRead stWrite shaOf newContent base = (stWrite, none) := by
  unfold update_config
  simp [h]

/-- C9 witness: a concurrent commit changed the identity token, so the
stale writer's update reports failure and mutates nothing. -/
theorem claim_C9_witness :
    (List.length ([] : List Entry) ≠ List.length [Entry.mk ("m".data) ("c".data)]) ∧
    update_config [] [Entry.mk ("m".data) ("c".data)] List.length ("x".data) ("b".data)
      = ([Entry.mk ("m".data) ("c".data)], none) :=
  ⟨by decide, claim_C9 _ _ _ _ _ (by decide)⟩

/-- C10: in the next-version scan shared by update and recover, a
history entry whose extracted version is 0 is skipped by the Python
truthiness test exactly as if it carried no tag, so the scan continues
with the older entries and such an entry never determines the next
version. -/
theorem claim_C10 (m : Str) (rest : List Str) (h : extract_version_number m = some 0) :
    next_version_scan (m :: rest) = next_version_scan rest := by
  have hstep : next_version_scan (m :: rest)
      = match extract_version_number m with
        | some v => if v = 0 then next_version_scan rest else v + 1
        | none => next_version_scan rest := rfl
  rw [hstep, h]
  norm_num

/-- C10 witness: `[Version 0]` extracts to 0 yet the scan walks past it
to the `[Version 5]` entry. -/
theorem claim_C10_witness :
    extract_version_number ("x [Version 0]".data) = some 0 ∧
    next_version_scan [("x [Version 0]".data), ("y [Version 5]".data)]
      = next_version_scan [("y [Version 5]".data)] :=
  ⟨by decide, claim_C10 _ _ (by decide)⟩

/-! ### JSON codec round-trip lemmas -/

theorem jsonWS_vals {c : Char} (h : jsonWS c = true) :
    c.toNat = 32 ∨ c.toNat = 10 ∨ c.toNat = 9 ∨ c.toNat = 13 := by
  simp only [jsonWS, Bool.or_eq_true, decide_eq_true_eq] at h
  rcases h with ((h | h) | h) | h
  · subst h; left; decide
  · subst h; right; left; decide
  · subst h; right; right; left; decide
  · have : c = Char.ofNat 13 := h
    subst this; right; right; right; decide

theorem jsonWS_eq_false {c : Char} (h32 : c.toNat ≠ 32) (h10 : c.toNat ≠ 10)
    (h9 : c.toNat ≠ 9) (h13 : c.toNat ≠ 13) : jsonWS c = false := by
  cases hw : jsonWS c
  · rfl
  · rcases jsonWS_vals hw with h | h | h | h <;> omega

theorem skipWS_cons_of {c : Char} {s : Str} (h : jsonWS c = false) : skipWS (c :: s) = c :: s := by
  unfold skipWS
  rw [List.dropWhile_cons, if_neg (by simp [h])]

theorem skipWS_cons_ws {c : Char} {s : Str} (h : jsonWS c = true) : skipWS (c :: s) = skipWS s := by
  unfold skipWS
  rw [List.dropWhile_cons, if_pos (by simp [h])]

theorem hexVal_digitChar {m : Nat} (h : m < 16) : hexVal? (Nat.digitChar m) = some m := by
  interval_cases m <;> decide

theorem hex4_reassemble {t : Nat} (h : t < 65536) :
    4096 * (t / 4096 % 16) + 256 * (t / 256 % 16) + 16 * (t / 16 % 16) + t % 16 = t := by
  omega

theorem parseJString_esc (c : Char) (hv : c.toNat < 65536) (r : Str) :
    parseJString (jsonEscapeChar c ++ r) = (parseJString r).map (fun p => (c :: p.1, p.2)) := by
  by_cases h1 : c = '"'
  · subst h1
    rw [show jsonEscapeChar '"' ++ r = '\\' :: '"' :: r from rfl, parseJString.eq_def]
    simp [escDecode?]
  by_cases h2 : c = '\\'
  · subst h2
    rw [show jsonEscapeChar '\\' ++ r = '\\' :: '\\' :: r from rfl, parseJString.eq_def]
    simp [escDecode?]
  by_cases h3 : c = Char.ofNat 8
  · subst h3
    rw [show jsonEscapeChar (Char.ofNat 8) ++ r = '\\' :: 'b' :: r from rfl, parseJString.eq_def]
    simp [escDecode?]
  by_cases h4 : c = Char.ofNat 9
  · subst h4
    rw [show jsonEscapeChar (Char.ofNat 9) ++ r = '\\' :: 't' :: r from rfl, parseJString.eq_def]
    simp [escDecode?]
  by_cases h5 : c = Char.ofNat 10
  · subst h5
    rw [show jsonEscapeChar (Char.ofNat 10) ++ r = '\\' :: 'n' :: r from rfl, parseJString.eq_def]
    simp [escDecode?]
  by_cases h6 : c = Char.ofNat 12
  · subst h6
    rw [show jsonEscapeChar (Char.ofNat 12) ++ r = '\\' :: 'f' :: r from rfl, parseJString.eq_def]
    simp [escDecode?]
  by_cases h7 : c = Char.ofNat 13
  · subst h7
    rw [show jsonEscapeChar (Char.ofNat 13) ++ r = '\\' :: 'r' :: r from rfl, parseJString.eq_def]
    simp [escDecode?]
  by_cases h8 : 32 ≤ c.toNat ∧ c.toNat ≤ 126
  · have hesc : jsonEscapeChar c = [c] := by
      unfold jsonEscapeChar
      rw [if_neg h1, if_neg h2, if_neg h3, if_neg h4, if_neg h5, if_neg h6, if_neg h7,
        if_pos h8]
    rw [hesc]
    show parseJString (c :: r) = _
    conv_lhs => rw [parseJString.eq_def]
    dsimp only
    rw [if_neg h1, if_neg h2, if_neg (by omega : ¬ c.toNat < 32)]
  · have hesc : jsonEscapeChar c = '\\' :: 'u' :: hex4 c.toNat := by
      unfold jsonEscapeChar
      rw [if_neg h1, if_neg h2, if_neg h3, if_neg h4, if_neg h5, if_neg h6, if_neg h7,
        if_neg h8]
    rw [hesc]
    have hshape : (('\\' :: 'u' :: hex4 c.toNat) : Str) ++ r
        = '\\' :: 'u' :: Nat.digitChar (c.toNat / 4096 % 16) :: Nat.digitChar (c.toNat / 256 % 16)
          :: Nat.digitChar (c.toNat / 16 % 16) :: Nat.digitChar (c.toNat % 16) :: r := by
      simp [hex4]
    rw [hshape]
    conv_lhs => rw [parseJString.eq_def]
    simp only [hexVal_digitChar (show c.toNat / 4096 % 16 < 16 by omega),
      hexVal_digitChar (show c.toNat / 256 % 16 < 16 by omega),
      hexVal_digitChar (show c.toNat / 16 % 16 < 16 by omega),
      hexVal_digitChar (show c.toNat % 16 < 16 by omega)]
    simp only [show ¬ ('\\' : Char) = '"' from by decide, if_false, if_pos rfl,
      show ('u' : Char) = 'u' from rfl, if_true]
    rw [hex4_reassemble hv, Char.ofNat_toNat]

theorem parseJString_escaped : ∀ (s : Str), validJsonStr s → ∀ (r : Str),
    parseJString ((s.map jsonEscapeChar).flatten ++ ('"' :: r)) = some (s, r) := by
  intro s
  induction s with
  | nil =>
    intro _ r
    simp only [List.map_nil, List.flatten_nil, List.nil_append]
    rw [parseJString.eq_def]
    simp
  | cons c s ih =>
    intro hv r
    have hc : c.toNat < 65536 := hv c (List.mem_cons_self _ _)
    simp only [List.map_cons, List.flatten_cons, List.append_assoc]
    rw [parseJString_esc c hc]
    rw [ih (fun x hx => hv x (List.mem_cons_of_mem _ hx)) r]
    rfl

theorem takeWhile_append_of {p : Char → Bool} : ∀ (ds rest : Str),
    (∀ c ∈ ds, p c = true) → (∀ c r2, rest = c :: r2 → p c = false) →
    (ds ++ rest).takeWhile p = ds ∧ (ds ++ rest).dropWhile p = rest := by
  intro ds
  induction ds with
  | nil =>
    intro rest _ hrest
    cases rest with
    | nil => simp
    | cons c r2 =>
      have := hrest c r2 rfl
      simp [List.takeWhile_cons, List.dropWhile_cons, this]
  | cons c ds ih =>
    intro rest hds hrest
    have hc : p c = true := hds c (List.mem_cons_self _ _)
    obtain ⟨h1, h2⟩ := ih rest (fun x hx => hds x (List.mem_cons_of_mem _ hx)) hrest
    simp [List.takeWhile_cons, List.dropWhile_cons, hc, h1, h2]

theorem digitsToNat_natDecimal (m : Nat) : digitsToNat (natDecimal m) = m := by
  have h := parseDigits?_natDecimal m
  unfold parseDigits? at h
  rw [if_pos ⟨natDecimal_ne_nil m, by rw [List.all_eq_true]; exact natDecimal_digits m⟩] at h
  exact Option.some.inj h

theorem parseJInt_print (n : Int) (r : Str) (hr : ∀ c r2, r = c :: r2 → isDigitCh c = false) :
    parseJInt (pyStrOfInt n ++ r) = some (n, r) := by
  by_cases hn : n < 0
  · have hs : pyStrOfInt n = Char.ofNat 45 :: natDecimal n.natAbs := by
      unfold pyStrOfInt; rw [if_pos hn]
    obtain ⟨ht, hd⟩ := takeWhile_append_of (natDecimal n.natAbs) r
      (natDecimal_digits n.natAbs) hr
    rw [hs]
    show parseJInt (Char.ofNat 45 :: (natDecimal n.natAbs ++ r)) = _
    conv_lhs => rw [parseJInt.eq_def]
    dsimp only
    rw [if_pos rfl, ht, hd]
    rw [if_neg (by simpa using natDecimal_ne_nil n.natAbs)]
    rw [digitsToNat_natDecimal]
    have : -((n.natAbs : Nat) : Int) = n := by omega
    rw [this]
  · have hs : pyStrOfInt n = natDecimal n.toNat := by
      unfold pyStrOfInt; rw [if_neg hn]
    obtain ⟨c, ds, hcr⟩ := List.exists_cons_of_ne_nil (natDecimal_ne_nil n.toNat)
    have hall : ∀ x ∈ natDecimal n.toNat, isDigitCh x = true := natDecimal_digits n.toNat
    have hcdig : isDigitCh c = true := hall c (by rw [hcr]; exact List.mem_cons_self _ _)
    have hcb := isDigitCh_toNat hcdig
    obtain ⟨ht, hd⟩ := takeWhile_append_of (natDecimal n.toNat) r hall hr
    rw [hs, hcr]
    show parseJInt (c :: (ds ++ r)) = _
    conv_lhs => rw [parseJInt.eq_def]
    dsimp only
    rw [if_neg (char_ne_of_toNat (by rw [char_toNat_45]; omega))]
    have hcds : (c :: (ds ++ r)) = natDecimal n.toNat ++ r := by rw [hcr]; rfl
    rw [hcds, ht, hd]
    rw [if_neg (by simpa using natDecimal_ne_nil n.toNat)]
    rw [digitsToNat_natDecimal]
    have : ((n.toNat : Nat) : Int) = n := Int.toNat_of_nonneg (not_lt.mp hn)
    rw [this]

theorem pyStrOfInt_ne_nil (n : Int) : pyStrOfInt n ≠ [] := by
  unfold pyStrOfInt
  split
  · simp
  · exact natDecimal_ne_nil _

theorem isPre_cons_false {a : Char} {as : Str} {b : Char} {bs : Str} (h : ¬ a = b) :
    isPre (a :: as) (b :: bs) = false := by
  simp [isPre, h]

theorem parseJValue_print (v : PyVal) (hv : validJsonVal v) (r : Str)
    (hr : ∀ c r2, r = c :: r2 → isDigitCh c = false) :
    parseJValue (jsonValStr v ++ r) = some (v, r) := by
  cases v with
  | vstr s =>
    show parseJValue (jsonQuote s ++ r) = _
    have hshape : jsonQuote s ++ r = '"' :: ((s.map jsonEscapeChar).flatten ++ ('"' :: r)) := by
      simp [jsonQuote]
    rw [hshape]
    conv_lhs => rw [parseJValue.eq_def]
    dsimp only
    rw [if_pos rfl, parseJString_escaped s hv r]
    rfl
  | vint n =>
    obtain ⟨c, ds, hcds⟩ := List.exists_cons_of_ne_nil (pyStrOfInt_ne_nil n)
    have hcval : c.toNat = 45 ∨ isDigitCh c = true :=
      pyStrOfInt_chars n c (by rw [hcds]; exact List.mem_cons_self _ _)
    have hcb : c.toNat = 45 ∨ (48 ≤ c.toNat ∧ c.toNat ≤ 57) := by
      rcases hcval with h | h
      · exact Or.inl h
      · exact Or.inr (isDigitCh_toNat h)
    show parseJValue (pyStrOfInt n ++ r) = _
    have hx : pyStrOfInt n ++ r = c :: (ds ++ r) := by rw [hcds]; rfl
    rw [hx]
    have hT : isPre ("true".data) (c :: (ds ++ r)) = false := by
      rw [show ("true".data : Str) = 't' :: ('r' :: 'u' :: 'e' :: []) from by decide]
      exact isPre_cons_false (char_ne_of_toNat
        (by rw [show ('t' : Char).toNat = 116 from by decide]; omega))
    have hF : isPre ("false".data) (c :: (ds ++ r)) = false := by
      rw [show ("false".data : Str) = 'f' :: ('a' :: 'l' :: 's' :: 'e' :: []) from by decide]
      exact isPre_cons_false (char_ne_of_toNat
        (by rw [show ('f' : Char).toNat = 102 from by decide]; omega))
    have hN : isPre ("null".data) (c :: (ds ++ r)) = false := by
      rw [show ("null".data : Str) = 'n' :: ('u' :: 'l' :: 'l' :: []) from by decide]
      exact isPre_cons_false (char_ne_of_toNat
        (by rw [show ('n' : Char).toNat = 110 from by decide]; omega))
    conv_lhs => rw [parseJValue.eq_def]
    dsimp only
    rw [if_neg (char_ne_of_toNat (by rw [show ('"' : Char).toNat = 34 from by decide]; omega))]
    rw [hT, hF, hN]
    simp only [Bool.false_eq_true, if_false]
    rw [← hx, parseJInt_print n r hr]
    rfl
  | vbool b =>
    cases b with
    | true =>
      show parseJValue (("true".data) ++ r) = _
      rw [show ("true".data : Str) = 't' :: ('r' :: 'u' :: 'e' :: []) from by decide]
      simp only [List.cons_append, List.nil_append]
      conv_lhs => rw [parseJValue.eq_def]
      dsimp only
      rw [if_neg (by decide)]
      rw [show isPre ("true".data) ('t' :: 'r' :: 'u' :: 'e' :: r) = true from by
        rw [show ("true".data : Str) = 't' :: ('r' :: 'u' :: 'e' :: []) from by decide]
        simp [isPre]]
      simp [List.drop]
    | false =>
      show parseJValue (("false".data) ++ r) = _
      rw [show ("false".data : Str) = 'f' :: ('a' :: 'l' :: 's' :: 'e' :: []) from by decide]
      simp only [List.cons_append, List.nil_append]
      conv_lhs => rw [parseJValue.eq_def]
      dsimp only
      rw [if_neg (by decide)]
      rw [show isPre ("true".data) ('f' :: 'a' :: 'l' :: 's' :: 'e' :: r) = false from by
        rw [show ("true".data : Str) = 't' :: ('r' :: 'u' :: 'e' :: []) from by decide]
        exact isPre_cons_false (by decide)]
      rw [show isPre ("false".data) ('f' :: 'a' :: 'l' :: 's' :: 'e' :: r) = true from by
        rw [show ("false".data : Str) = 'f' :: ('a' :: 'l' :: 's' :: 'e' :: []) from by decide]
        simp [isPre]]
      simp [List.drop]
  | vnull =>
    show parseJValue (("null".data) ++ r) = _
    rw [show ("null".data : Str) = 'n' :: ('u' :: 'l' :: 'l' :: []) from by decide]
    simp only [List.cons_append, List.nil_append]
    conv_lhs => rw [parseJValue.eq_def]
    dsimp only
    rw [if_neg (by decide)]
    rw [show isPre ("true".data) ('n' :: 'u' :: 'l' :: 'l' :: r) = false from by
      rw [show ("true".data : Str) = 't' :: ('r' :: 'u' :: 'e' :: []) from by decide]
      exact isPre_cons_false (by decide)]
    rw [show isPre ("false".data) ('n' :: 'u' :: 'l' :: 'l' :: r) = false from by
      rw [show ("false".data : Str) = 'f' :: ('a' :: 'l' :: 's' :: 'e' :: []) from by decide]
      exact isPre_cons_false (by decide)]
    rw [show isPre ("null".data) ('n' :: 'u' :: 'l' :: 'l' :: r) = true from by
      rw [show ("null".data : Str) = 'n' :: ('u' :: 'l' :: 'l' :: []) from by decide]
      simp [isPre]]
    simp [List.drop]
  | vlist xs => exact hv.elim

theorem skipWS_jsonValStr (v : PyVal) (hv : validJsonVal v) (tail : Str) :
    skipWS (jsonValStr v ++ tail) = jsonValStr v ++ tail := by
  cases v with
  | vstr s =>
    show skipWS (jsonQuote s ++ tail) = jsonQuote s ++ tail
    have hq : jsonQuote s ++ tail = '"' :: ((s.map jsonEscapeChar).flatten ++ ('"' :: tail)) := by
      simp [jsonQuote]
    rw [hq]
    exact skipWS_cons_of (by decide)
  | vint n =>
    obtain ⟨c, ds, hcds⟩ := List.exists_cons_of_ne_nil (pyStrOfInt_ne_nil n)
    have hcb : c.toNat = 45 ∨ (48 ≤ c.toNat ∧ c.toNat ≤ 57) := by
      rcases pyStrOfInt_chars n c (by rw [hcds]; exact List.mem_cons_self _ _) with h | h
      · exact Or.inl h
      · exact Or.inr (isDigitCh_toNat h)
    show skipWS (pyStrOfInt n ++ tail) = pyStrOfInt n ++ tail
    have hx : pyStrOfInt n ++ tail = c :: (ds ++ tail) := by rw [hcds]; rfl
    rw [hx]
    exact skipWS_cons_of (jsonWS_eq_false (by omega) (by omega) (by omega) (by omega))
  | vbool b =>
    cases b with
    | true =>
      show skipWS (("true".data) ++ tail) = ("true".data) ++ tail
      have hx : ("true".data : Str) ++ tail = 't' :: ('r' :: 'u' :: 'e' :: tail) := by
        rw [show ("true".data : Str) = 't' :: ('r' :: 'u' :: 'e' :: []) from by decide]; rfl
      rw [hx]
      exact skipWS_cons_of (by decide)
    | false =>
      show skipWS (("false".data) ++ tail) = ("false".data) ++ tail
      have hx : ("false".data : Str) ++ tail = 'f' :: ('a' :: 'l' :: 's' :: 'e' :: tail) := by
        rw [show ("false".data : Str) = 'f' :: ('a' :: 'l' :: 's' :: 'e' :: []) from by decide]; rfl
      rw [hx]
      exact skipWS_cons_of (by decide)
  | vnull =>
    show skipWS (("null".data) ++ tail) = ("null".data) ++ tail
    have hx : ("null".data : Str) ++ tail = 'n' :: ('u' :: 'l' :: 'l' :: tail) := by
      rw [show ("null".data : Str) = 'n' :: ('u' :: 'l' :: 'l' :: []) from by decide]; rfl
    rw [hx]
    exact skipWS_cons_of (by decide)
  | vlist xs => exact hv.elim

theorem tail_nl_not_digit (x : Str) :
    ∀ c r2, ('\n' :: x : Str) = c :: r2 → isDigitCh c = false := by
  intro c r2 h
  injection h with h1 _
  subst h1
  decide

theorem joinSep_cons_decomp (sep : Str) (x : Str) (xs : List Str) :
    ∃ t, joinSep sep (x :: xs) = x ++ t := by
  cases xs with
  | nil => exact ⟨[], by simp [joinSep]⟩
  | cons y ys => exact ⟨sep ++ joinSep sep (y :: ys), by simp [joinSep]⟩

theorem parseJMembers_print : ∀ (d : Doc) (acc : Doc) (fuel : Nat) (r : Str), d ≠ [] →
    (∀ kv ∈ d, validJsonStr kv.1 ∧ validJsonVal kv.2) → d.length ≤ fuel →
    parseJMembers fuel
      (joinSep ((",\n  ".data)) (d.map jsonEntryStr) ++ ('\n' :: Char.ofNat 125 :: r)) acc
      = some (acc ++ d, r) := by
  intro d
  induction d with
  | nil => intro acc fuel r h; exact absurd rfl h
  | cons kv d ih =>
    intro acc fuel r _ hvalid hfuel
    obtain ⟨k, v⟩ := kv
    cases fuel with
    | zero => simp at hfuel
    | succ f =>
      obtain ⟨hk, hv⟩ := hvalid (k, v) (List.mem_cons_self _ _)
      cases d with
      | nil =>
        have hshape :
            joinSep ((",\n  ".data)) (((k, v) :: []).map jsonEntryStr)
                ++ ('\n' :: Char.ofNat 125 :: r)
              = '"' :: ((k.map jsonEscapeChar).flatten
                  ++ ('"' :: (':' :: ' ' :: (jsonValStr v ++ ('\n' :: Char.ofNat 125 :: r))))) := by
          simp [joinSep, jsonEntryStr, jsonQuote]
        rw [hshape]
        conv_lhs => rw [parseJMembers.eq_def]
        try dsimp only
        rw [if_pos rfl, parseJString_escaped k hk]
        try dsimp only
        rw [skipWS_cons_of (by decide)]
        try dsimp only
        rw [if_pos rfl]
        rw [skipWS_cons_ws (by decide), skipWS_jsonValStr v hv,
          parseJValue_print v hv _ (tail_nl_not_digit _)]
        try dsimp only
        rw [skipWS_cons_ws (by decide), skipWS_cons_of (by decide)]
        try dsimp only
        rw [if_pos rfl]
      | cons kv2 d2 =>
        obtain ⟨t, ht⟩ := joinSep_cons_decomp ((",\n  ".data)) (jsonEntryStr kv2)
          (d2.map jsonEntryStr)
        have hshape :
            joinSep ((",\n  ".data)) (((k, v) :: kv2 :: d2).map jsonEntryStr)
                ++ ('\n' :: Char.ofNat 125 :: r)
              = '"' :: ((k.map jsonEscapeChar).flatten
                  ++ ('"' :: (':' :: ' ' :: (jsonValStr v
                    ++ (',' :: '\n' :: ' ' :: ' '
                      :: (joinSep ((",\n  ".data)) ((kv2 :: d2).map jsonEntryStr)
                        ++ ('\n' :: Char.ofNat 125 :: r))))))) := by
          simp [joinSep, jsonEntryStr, jsonQuote]
        rw [hshape]
        conv_lhs => rw [parseJMembers.eq_def]
        try dsimp only
        rw [if_pos rfl, parseJString_escaped k hk]
        try dsimp only
        rw [skipWS_cons_of (by decide)]
        try dsimp only
        rw [if_pos rfl]
        rw [skipWS_cons_ws (by decide), skipWS_jsonValStr v hv,
          parseJValue_print v hv _ (fun c r2 h => by
            injection h with h1 _; subst h1; decide)]
        try dsimp only
        rw [skipWS_cons_of (by decide)]
        try dsimp only
        rw [if_neg (by decide), if_pos rfl]
        rw [skipWS_cons_ws (by decide), skipWS_cons_ws (by decide), skipWS_cons_ws (by decide)]
        obtain ⟨X, hX⟩ : ∃ X, jsonEntryStr kv2 = '"' :: X :=
          ⟨(kv2.1.map jsonEscapeChar).flatten ++ '"' :: ':' :: ' ' :: jsonValStr kv2.2,
            by simp [jsonEntryStr, jsonQuote]⟩
        rw [show joinSep ((",\n  ".data)) ((kv2 :: d2).map jsonEntryStr)
              ++ ('\n' :: Char.ofNat 125 :: r)
            = '"' :: (X ++ t ++ ('\n' :: Char.ofNat 125 :: r)) from by
          simp only [List.map_cons] at ht ⊢
          rw [ht, hX]
          simp]
        rw [skipWS_cons_of (by decide)]
        rw [show ('"' :: (X ++ t ++ ('\n' :: Char.ofNat 125 :: r)) : Str)
            = joinSep ((",\n  ".data)) ((kv2 :: d2).map jsonEntryStr)
                ++ ('\n' :: Char.ofNat 125 :: r) from by
          simp only [List.map_cons] at ht ⊢
          rw [ht, hX]
          simp]
        rw [ih (acc ++ [(k, v)]) f r (by simp)
          (fun x hx => hvalid x (List.mem_cons_of_mem _ hx))
          (by simpa using hfuel)]
        simp

theorem mapO_eq_map {α β : Type} {f : α → Option β} {g : α → β} :
    ∀ l : List α, (∀ x ∈ l, f x = some (g x)) → mapO f l = some (l.map g) := by
  intro l
  induction l with
  | nil => intro _; rfl
  | cons x xs ih =>
    intro h
    simp only [mapO, h x (List.mem_cons_self _ _), ih (fun y hy => h y (List.mem_cons_of_mem _ hy)),
      List.map_cons]

theorem jsonVal?_eq {v : PyVal} (hv : validJsonVal v) : jsonVal? v = some (jsonValStr v) := by
  cases v with
  | vstr s => rfl
  | vint n => rfl
  | vbool b => cases b <;> rfl
  | vnull => rfl
  | vlist xs => exact hv.elim

theorem joinSep_len_ge (sep : Str) : ∀ xs : List Str, (∀ x ∈ xs, x ≠ []) →
    xs.length ≤ (joinSep sep xs).length := by
  intro xs
  induction xs with
  | nil => intro _; simp [joinSep]
  | cons x ys ih =>
    intro h
    cases ys with
    | nil =>
      have : x ≠ [] := h x (List.mem_cons_self _ _)
      have : 1 ≤ x.length := by
        cases x with
        | nil => exact absurd rfl this
        | cons a b => simp
      simpa [joinSep]
    | cons y ys2 =>
      have hx : x ≠ [] := h x (List.mem_cons_self _ _)
      have hx1 : 1 ≤ x.length := by
        cases x with
        | nil => exact absurd rfl hx
        | cons a b => simp
      have := ih (fun z hz => h z (List.mem_cons_of_mem _ hz))
      simp only [joinSep, List.length_cons, List.length_append]
      simp only [List.length_cons] at this
      omega

theorem jsonEntryStr_ne_nil (kv : Str × PyVal) : jsonEntryStr kv ≠ [] := by
  simp [jsonEntryStr, jsonQuote]

theorem jsonLoads_dumps (d : Doc) (h : validJsonDoc d) :
    ∃ t, jsonDumps d = some t ∧ jsonLoads t = some d := by
  cases d with
  | nil => exact ⟨_, rfl, by decide⟩
  | cons kv0 d0 =>
    have hvals : ∀ kv ∈ (kv0 :: d0), validJsonStr kv.1 ∧ validJsonVal kv.2 := h.2
    have hmap : mapO (fun kv => (jsonVal? kv.2).map (fun vs => jsonQuote kv.1 ++ ((": ".data)) ++ vs))
        (kv0 :: d0) = some ((kv0 :: d0).map jsonEntryStr) :=
      mapO_eq_map _ (fun kv hkv => by rw [jsonVal?_eq (hvals kv hkv).2]; rfl)
    refine ⟨[Char.ofNat 123, '\n', ' ', ' ']
      ++ joinSep ((",\n  ".data)) ((kv0 :: d0).map jsonEntryStr) ++ ['\n', Char.ofNat 125],
      ?_, ?_⟩
    · conv_lhs => rw [jsonDumps.eq_def]
      dsimp only
      rw [hmap]
      rfl
    · obtain ⟨t2, ht2⟩ := joinSep_cons_decomp ((",\n  ".data)) (jsonEntryStr kv0)
        (d0.map jsonEntryStr)
      obtain ⟨X0, hX0⟩ : ∃ X, jsonEntryStr kv0 = '"' :: X :=
        ⟨(kv0.1.map jsonEscapeChar).flatten ++ '"' :: ':' :: ' ' :: jsonValStr kv0.2,
          by simp [jsonEntryStr, jsonQuote]⟩
      have hexp : ([Char.ofNat 123, '\n', ' ', ' ']
          ++ joinSep ((",\n  ".data)) ((kv0 :: d0).map jsonEntryStr) ++ ['\n', Char.ofNat 125] : Str)
          = Char.ofNat 123 :: '\n' :: ' ' :: ' '
            :: (joinSep ((",\n  ".data)) ((kv0 :: d0).map jsonEntryStr)
              ++ ('\n' :: Char.ofNat 125 :: [])) := by
        simp
      rw [hexp]
      conv_lhs => rw [jsonLoads.eq_def]
      rw [skipWS_cons_of (by decide)]
      dsimp only
      rw [if_pos rfl]
      rw [skipWS_cons_ws (by decide), skipWS_cons_ws (by decide), skipWS_cons_ws (by decide)]
      have hJhead : joinSep ((",\n  ".data)) ((kv0 :: d0).map jsonEntryStr)
            ++ ('\n' :: Char.ofNat 125 :: [])
          = '"' :: (X0 ++ t2 ++ ('\n' :: Char.ofNat 125 :: [])) := by
        simp only [List.map_cons] at ht2 ⊢
        rw [ht2, hX0]
        simp
      rw [hJhead, skipWS_cons_of (by decide)]
      dsimp only
      rw [if_neg (by decide)]
      rw [← hJhead]
      have hlen : (kv0 :: d0).length
          ≤ (joinSep ((",\n  ".data)) ((kv0 :: d0).map jsonEntryStr)
              ++ ('\n' :: Char.ofNat 125 :: [])).length + 1 := by
        have h1 : ((kv0 :: d0).map jsonEntryStr).length
            ≤ (joinSep ((",\n  ".data)) ((kv0 :: d0).map jsonEntryStr)).length :=
          joinSep_len_ge _ _ (by
            intro x hx
            obtain ⟨kv, _, hkv⟩ := List.mem_map.mp hx
            rw [← hkv]
            exact jsonEntryStr_ne_nil kv)
        simp only [List.length_map] at h1
        simp only [List.length_append]
        omega
      rw [parseJMembers_print (kv0 :: d0) [] _ [] (by simp) hvals hlen]
      simp [skipWS]

/-! ### TOML codec round-trip lemmas -/

theorem tomlVal?_eq {v : PyVal} (hv : validTomlVal v) : tomlVal? v = some (tomlValStr v) := by
  cases v with
  | vstr s => rfl
  | vint n => rfl
  | vbool b => cases b <;> rfl
  | vnull => exact hv.elim
  | vlist xs => exact hv.elim

theorem tomlValue?_print (v : PyVal) (hv : validTomlVal v) :
    tomlValue? (tomlValStr v) = some v := by
  cases v with
  | vstr s =>
    show tomlValue? ('"' :: (s ++ ['"'])) = _
    conv_lhs => rw [tomlValue?.eq_def]
    dsimp only
    rw [if_pos rfl]
    have hs : ∀ c ∈ s, (decide (c ≠ '"')) = true := by
      intro c hc
      simp only [decide_eq_true_eq]
      exact char_ne_of_toNat
        (by rw [show ('"' : Char).toNat = 34 from by decide]; exact (hv c hc).2.2.1)
    obtain ⟨ht, hd⟩ := takeWhile_append_of s ['"'] hs
      (fun c r2 hr => by injection hr with h1 _; subst h1; simp)
    rw [ht, hd]
    dsimp only
    rw [if_pos rfl]
  | vint n =>
    by_cases hn : n < 0
    · have hs : tomlValStr (PyVal.vint n) = Char.ofNat 45 :: natDecimal n.natAbs := by
        show pyStrOfInt n = _
        unfold pyStrOfInt; rw [if_pos hn]
      rw [hs]
      conv_lhs => rw [tomlValue?.eq_def]
      dsimp only
      rw [if_neg (by decide)]
      rw [if_neg (show ¬((Char.ofNat 45 :: natDecimal n.natAbs : Str) = ("true".data)) from by
        rw [show ("true".data : Str) = 't' :: ('r' :: 'u' :: 'e' :: []) from by decide]
        intro heq; injection heq with h1 _; exact absurd h1 (by decide))]
      rw [if_neg (show ¬((Char.ofNat 45 :: natDecimal n.natAbs : Str) = ("false".data)) from by
        rw [show ("false".data : Str) = 'f' :: ('a' :: 'l' :: 's' :: 'e' :: []) from by decide]
        intro heq; injection heq with h1 _; exact absurd h1 (by decide))]
      rw [if_pos (by decide : (Char.ofNat 45 : Char) = '-')]
      rw [parseDigits?_natDecimal]
      have habs : ((n.natAbs : Nat) : Int) = -n := by omega
      simp [habs]
    · have hs : tomlValStr (PyVal.vint n) = natDecimal n.toNat := by
        show pyStrOfInt n = _
        unfold pyStrOfInt; rw [if_neg hn]
      obtain ⟨c, ds, hcds⟩ := List.exists_cons_of_ne_nil (natDecimal_ne_nil n.toNat)
      have hcb := isDigitCh_toNat (natDecimal_digits n.toNat c
        (by rw [hcds]; exact List.mem_cons_self _ _))
      rw [hs, hcds]
      conv_lhs => rw [tomlValue?.eq_def]
      dsimp only
      rw [if_neg (char_ne_of_toNat (by rw [show ('"' : Char).toNat = 34 from by decide]; omega))]
      rw [if_neg (show ¬((c :: ds : Str) = ("true".data)) from by
        rw [show ("true".data : Str) = 't' :: ('r' :: 'u' :: 'e' :: []) from by decide]
        intro heq; injection heq with h1 _; subst h1
        revert hcb; decide)]
      rw [if_neg (show ¬((c :: ds : Str) = ("false".data)) from by
        rw [show ("false".data : Str) = 'f' :: ('a' :: 'l' :: 's' :: 'e' :: []) from by decide]
        intro heq; injection heq with h1 _; subst h1
        revert hcb; decide)]
      rw [if_neg (char_ne_of_toNat (by rw [char_toNat_45]; omega))]
      rw [← hcds, parseDigits?_natDecimal]
      have habs : ((n.toNat : Nat) : Int) = n := Int.toNat_of_nonneg (not_lt.mp hn)
      simp [habs]
  | vbool b => cases b <;> decide
  | vnull => exact hv.elim
  | vlist xs => exact hv.elim

theorem tomlLine?_print (k : Str) (v : PyVal) (hk1 : k ≠ []) (hk2 : ∀ c ∈ k, bareKeyCh c = true)
    (hv : validTomlVal v) : tomlLine? (tomlLineStr (k, v)) = some (k, v) := by
  have hshape : tomlLineStr (k, v) = k ++ (' ' :: '=' :: ' ' :: tomlValStr v) := by
    show k ++ ((" = ".data)) ++ tomlValStr v = _
    rw [show ((" = ".data) : Str) = ' ' :: '=' :: ' ' :: [] from by decide]
    simp
  obtain ⟨ht, hd⟩ := takeWhile_append_of k (' ' :: '=' :: ' ' :: tomlValStr v) hk2
    (fun c r2 hr => by injection hr with h1 _; subst h1; decide)
  rw [hshape]
  unfold tomlLine?
  dsimp only
  rw [ht, hd, if_neg hk1]
  dsimp only
  rw [if_pos ⟨rfl, rfl, rfl⟩, tomlValue?_print v hv]
  rfl

theorem pySplit_nl_flatten : ∀ (lines : List Str), (∀ l ∈ lines, ∀ c ∈ l, c ≠ '\n') →
    pySplit ['\n'] ((lines.map (fun l => l ++ ['\n'])).flatten) = lines ++ [[]] := by
  intro lines
  induction lines with
  | nil => intro _; decide
  | cons l ls ih =>
    intro h
    have hl : ∀ c ∈ l, c ≠ '\n' := h l (List.mem_cons_self _ _)
    have hshape : ((l :: ls).map (fun l => l ++ ['\n'])).flatten
        = l ++ ('\n' :: ((ls.map (fun l => l ++ ['\n'])).flatten)) := by
      simp
    rw [hshape, pySplit_eq_splitGoS (by decide)]
    rw [splitGoS_chunk '\n' [] l _ (fun p₁ p₂ hdec hne => by
      cases p₂ with
      | nil => exact absurd rfl hne
      | cons x xs =>
        have hx : x ∈ l := by rw [hdec]; exact List.mem_append_right p₁ (List.mem_cons_self _ _)
        have : (decide ('\n' = x)) = false := by
          simp only [decide_eq_false_iff_not]
          exact fun he => (hl x hx) he.symm
        simp [isPre, this])]
    rw [show ('\n' :: ((ls.map (fun l => l ++ ['\n'])).flatten) : Str)
        = ('\n' :: []) ++ ((ls.map (fun l => l ++ ['\n'])).flatten) from rfl]
    rw [splitGoS_sep_head]
    rw [show splitGoS ('\n' :: []) ((ls.map (fun l => l ++ ['\n'])).flatten) 0
        = pySplit ['\n'] ((ls.map (fun l => l ++ ['\n'])).flatten) from rfl]
    rw [ih (fun x hx => h x (List.mem_cons_of_mem _ hx))]
    simp

theorem toml_foldl : ∀ (d : Doc) (acc : Doc),
    (∀ kv ∈ d, (kv.1 ≠ [] ∧ ∀ c ∈ kv.1, bareKeyCh c = true) ∧ validTomlVal kv.2) →
    ((d.map tomlLineStr) ++ [[]]).foldl tomlStep (some acc) = some (acc ++ d) := by
  intro d
  induction d with
  | nil => intro acc _; simp [tomlStep]
  | cons kv d ih =>
    intro acc h
    obtain ⟨k, v⟩ := kv
    obtain ⟨⟨hk1, hk2⟩, hv⟩ := h (k, v) (List.mem_cons_self _ _)
    have hne : tomlLineStr (k, v) ≠ [] := by
      show k ++ ((" = ".data)) ++ tomlValStr v ≠ []
      cases k with
      | nil => exact absurd rfl hk1
      | cons a b => simp
    have hstep : tomlStep (some acc) (tomlLineStr (k, v)) = some (acc ++ [(k, v)]) := by
      unfold tomlStep
      dsimp only
      rw [if_neg hne, tomlLine?_print k v hk1 hk2 hv]
    simp only [List.map_cons, List.cons_append, List.foldl_cons, hstep]
    rw [ih (acc ++ [(k, v)]) (fun x hx => h x (List.mem_cons_of_mem _ hx))]
    simp

theorem bareKeyCh_not_nl {c : Char} (h : bareKeyCh c = true) : c ≠ '\n' := by
  intro he
  subst he
  exact absurd h (by decide)

theorem tomlValStr_not_nl (v : PyVal) (hv : validTomlVal v) : ∀ c ∈ tomlValStr v, c ≠ '\n' := by
  intro c hc
  cases v with
  | vstr s =>
    simp only [tomlValStr, List.mem_cons, List.mem_append, List.mem_singleton] at hc
    rcases hc with (h | h) | (h | h)
    · subst h; decide
    · have := (hv c h).1
      exact char_ne_of_toNat (by rw [show ('\n' : Char).toNat = 10 from by decide]; omega)
    · subst h; decide
    · exact absurd h (List.not_mem_nil c)
  | vint n =>
    rcases pyStrOfInt_chars n c hc with h | h
    · exact char_ne_of_toNat (by rw [h]; decide)
    · have := isDigitCh_toNat h
      exact char_ne_of_toNat (by rw [show ('\n' : Char).toNat = 10 from by decide]; omega)
  | vbool b =>
    cases b with
    | true =>
      rw [show tomlValStr (PyVal.vbool true) = 't' :: ('r' :: 'u' :: 'e' :: []) from by decide] at hc
      simp only [List.mem_cons, List.not_mem_nil, or_false] at hc
      rcases hc with h | h | h | h <;> (subst h; decide)
    | false =>
      rw [show tomlValStr (PyVal.vbool false) = 'f' :: ('a' :: 'l' :: 's' :: 'e' :: []) from by decide] at hc
      simp only [List.mem_cons, List.not_mem_nil, or_false] at hc
      rcases hc with h | h | h | h | h <;> (subst h; decide)
  | vnull => exact hv.elim
  | vlist xs => exact hv.elim

theorem tomlLoads_dumps (d : Doc) (h : validTomlDoc d) :
    ∃ t, tomlDumps d = some t ∧ tomlLoads t = some d := by
  have hmap : mapO (fun kv => (tomlVal? kv.2).map (fun vs => kv.1 ++ ((" = ".data)) ++ vs)) d
      = some (d.map tomlLineStr) :=
    mapO_eq_map _ (fun kv hkv => by rw [tomlVal?_eq (h.2 kv hkv).2]; rfl)
  refine ⟨((d.map tomlLineStr).map (fun l => l ++ ['\n'])).flatten, ?_, ?_⟩
  · unfold tomlDumps
    rw [hmap]
    rfl
  · unfold tomlLoads
    rw [pySplit_nl_flatten (d.map tomlLineStr) (by
      intro l hl c hc
      obtain ⟨kv, hkv, hkveq⟩ := List.mem_map.mp hl
      rw [← hkveq] at hc
      obtain ⟨⟨hk1, hk2⟩, hv⟩ := h.2 kv hkv
      have hc2 : c ∈ kv.1 ++ ((" = ".data)) ++ tomlValStr kv.2 := hc
      rcases List.mem_append.mp hc2 with h1 | h1
      · rcases List.mem_append.mp h1 with h2 | h2
        · exact bareKeyCh_not_nl (hk2 c h2)
        · rw [show ((" = ".data) : Str) = ' ' :: '=' :: ' ' :: [] from by decide] at h2
          simp only [List.mem_cons, List.not_mem_nil, or_false] at h2
          rcases h2 with h3 | h3 | h3 <;> (subst h3; decide)
      · exact tomlValStr_not_nl kv.2 hv c h1)]
    rw [toml_foldl d [] (fun kv hkv => h.2 kv hkv)]
    simp only [List.nil_append]
    rw [if_pos h.1]

/-! ### XML codec round-trip lemmas -/

theorem xmlUnescape_esc (c : Char) (r : Str) :
    xmlUnescape (xmlEscapeChar c ++ r) = (xmlUnescape r).map (fun t => c :: t) := by
  by_cases h1 : c = '&'
  · subst h1
    rw [show xmlEscapeChar '&' ++ r = '&' :: 'a' :: 'm' :: 'p' :: ';' :: r from by
      rw [show xmlEscapeChar '&' = '&' :: 'a' :: 'm' :: 'p' :: ';' :: [] from by decide]; rfl]
    conv_lhs => rw [xmlUnescape.eq_def]
    dsimp only
    rw [if_pos rfl, if_pos rfl, if_pos ⟨rfl, rfl, rfl⟩]
  by_cases h2 : c = '<'
  · subst h2
    rw [show xmlEscapeChar '<' ++ r = '&' :: 'l' :: 't' :: ';' :: r from by
      rw [show xmlEscapeChar '<' = '&' :: 'l' :: 't' :: ';' :: [] from by decide]; rfl]
    conv_lhs => rw [xmlUnescape.eq_def]
    dsimp only
    rw [if_pos rfl, if_neg (by decide), if_pos rfl, if_pos ⟨rfl, rfl⟩]
  by_cases h3 : c = '>'
  · subst h3
    rw [show xmlEscapeChar '>' ++ r = '&' :: 'g' :: 't' :: ';' :: r from by
      rw [show xmlEscapeChar '>' = '&' :: 'g' :: 't' :: ';' :: [] from by decide]; rfl]
    conv_lhs => rw [xmlUnescape.eq_def]
    dsimp only
    rw [if_pos rfl, if_neg (by decide), if_neg (by decide), if_pos rfl, if_pos ⟨rfl, rfl⟩]
  · have hesc : xmlEscapeChar c = [c] := by
      unfold xmlEscapeChar
      rw [if_neg h1, if_neg h2, if_neg h3]
    rw [hesc]
    show xmlUnescape (c :: r) = _
    conv_lhs => rw [xmlUnescape.eq_def]
    dsimp only
    rw [if_neg h1]

theorem xmlUnescape_flatten : ∀ s : Str,
    xmlUnescape ((s.map xmlEscapeChar).flatten) = some s := by
  intro s
  induction s with
  | nil => rfl
  | cons c s ih =>
    simp only [List.map_cons, List.flatten_cons]
    rw [xmlUnescape_esc c, ih]
    rfl

theorem xmlEscapeChar_not_lt (c : Char) : ∀ x ∈ xmlEscapeChar c, x ≠ '<' := by
  intro x hx
  by_cases h1 : c = '&'
  · subst h1
    rw [show xmlEscapeChar '&' = '&' :: 'a' :: 'm' :: 'p' :: ';' :: [] from by decide] at hx
    simp only [List.mem_cons, List.not_mem_nil, or_false] at hx
    rcases hx with h | h | h | h | h <;> (subst h; decide)
  by_cases h2 : c = '<'
  · subst h2
    rw [show xmlEscapeChar '<' = '&' :: 'l' :: 't' :: ';' :: [] from by decide] at hx
    simp only [List.mem_cons, List.not_mem_nil, or_false] at hx
    rcases hx with h | h | h | h <;> (subst h; decide)
  by_cases h3 : c = '>'
  · subst h3
    rw [show xmlEscapeChar '>' = '&' :: 'g' :: 't' :: ';' :: [] from by decide] at hx
    simp only [List.mem_cons, List.not_mem_nil, or_false] at hx
    rcases hx with h | h | h | h <;> (subst h; decide)
  · have hesc : xmlEscapeChar c = [c] := by
      unfold xmlEscapeChar
      rw [if_neg h1, if_neg h2, if_neg h3]
    rw [hesc] at hx
    rw [List.mem_singleton.mp hx]
    exact h2

theorem parseXChild_print (k text : Str) (hk1 : k ≠ []) (hk2 : ∀ c ∈ k, xmlNameCh c = true)
    (htext : validXmlText text) (r : Str) :
    parseXChild (xmlElem k text ++ r) = some ((k, PyVal.vstr text), r) := by
  have hshape : xmlElem k text ++ r
      = '<' :: (k ++ ('>' :: ((text.map xmlEscapeChar).flatten
          ++ ('<' :: '/' :: (k ++ ('>' :: r)))))) := by
    unfold xmlElem
    rw [if_neg htext.1]
    rw [show (("</".data) : Str) = '<' :: '/' :: [] from by decide]
    simp
  obtain ⟨ht1, hd1⟩ := takeWhile_append_of k
    ('>' :: ((text.map xmlEscapeChar).flatten ++ ('<' :: '/' :: (k ++ ('>' :: r))))) hk2
    (fun c r2 hr => by injection hr with hh _; subst hh; decide)
  have hesc_ne : ∀ c ∈ (text.map xmlEscapeChar).flatten, (decide (c ≠ '<')) = true := by
    intro c hc
    simp only [decide_eq_true_eq]
    obtain ⟨piece, hpiece, hcp⟩ := List.mem_flatten.mp hc
    obtain ⟨x, _, hxp⟩ := List.mem_map.mp hpiece
    rw [← hxp] at hcp
    exact xmlEscapeChar_not_lt x c hcp
  obtain ⟨ht2, hd2⟩ := takeWhile_append_of ((text.map xmlEscapeChar).flatten)
    ('<' :: '/' :: (k ++ ('>' :: r))) hesc_ne
    (fun c r2 hr => by injection hr with hh _; subst hh; simp)
  obtain ⟨ht3, hd3⟩ := takeWhile_append_of k ('>' :: r) hk2
    (fun c r2 hr => by injection hr with hh _; subst hh; decide)
  rw [hshape]
  conv_lhs => rw [parseXChild.eq_def]
  dsimp only
  rw [if_pos rfl, ht1, hd1, if_neg hk1]
  dsimp only
  rw [if_neg (by decide), if_pos rfl, ht2, xmlUnescape_flatten, hd2]
  dsimp only
  rw [if_pos ⟨rfl, rfl⟩, ht3, if_pos rfl, hd3]
  dsimp only
  rw [if_pos rfl, if_neg htext.1]

theorem flatten_len_ge : ∀ xs : List Str, (∀ x ∈ xs, x ≠ []) →
    xs.length ≤ xs.flatten.length := by
  intro xs
  induction xs with
  | nil => intro _; simp
  | cons x ys ih =>
    intro h
    have hx : 1 ≤ x.length :=
      List.length_pos.mpr (h x (List.mem_cons_self _ _))
    have := ih (fun z hz => h z (List.mem_cons_of_mem _ hz))
    simp only [List.flatten_cons, List.length_cons, List.length_append]
    omega

theorem parseXChildren_print : ∀ (d : Doc) (acc : Doc) (fuel : Nat),
    (∀ kv ∈ d, (kv.1 ≠ [] ∧ ∀ c ∈ kv.1, xmlNameCh c = true) ∧
      ∃ s, kv.2 = PyVal.vstr s ∧ validXmlText s) →
    d.length < fuel →
    parseXChildren fuel ((d.map xmlElemStr).flatten ++ (("</config>".data))) acc
      = some (acc ++ d) := by
  intro d
  induction d with
  | nil =>
    intro acc fuel _ hfuel
    cases fuel with
    | zero => omega
    | succ f =>
      simp only [List.map_nil, List.flatten_nil, List.nil_append, parseXChildren]
      rw [if_pos (by decide), if_pos (by decide)]
      simp
  | cons kv d ih =>
    intro acc fuel hvalid hfuel
    obtain ⟨⟨hk0, hk20⟩, s, hvs0, hstext⟩ := hvalid kv (List.mem_cons_self _ _)
    obtain ⟨k, v⟩ := kv
    have hk1 : k ≠ [] := hk0
    have hk2 : ∀ c ∈ k, xmlNameCh c = true := hk20
    have hvs : v = PyVal.vstr s := hvs0
    subst hvs
    cases fuel with
    | zero => omega
    | succ f =>
      obtain ⟨kh, kt, hkht⟩ := List.exists_cons_of_ne_nil hk1
      have helem : xmlElemStr (k, PyVal.vstr s) = xmlElem k s := rfl
      have hshape : ((((k, PyVal.vstr s) :: d).map xmlElemStr).flatten
            ++ (("</config>".data)) : Str)
          = xmlElem k s ++ ((d.map xmlElemStr).flatten ++ (("</config>".data))) := by
        simp [helem]
      rw [hshape]
      have hx : xmlElem k s ++ ((d.map xmlElemStr).flatten ++ (("</config>".data)))
          = '<' :: kh :: (kt ++ ('>' :: ((s.map xmlEscapeChar).flatten
              ++ ('<' :: '/' :: (k ++ ('>' :: ((d.map xmlElemStr).flatten
                ++ (("</config>".data))))))))) := by
        unfold xmlElem
        rw [if_neg hstext.1, hkht]
        rw [show (("</".data) : Str) = '<' :: '/' :: [] from by decide]
        simp [hkht]
      have hkh : xmlNameCh kh = true := hk2 kh (by rw [hkht]; exact List.mem_cons_self _ _)
      have hpre : isPre (("</config>".data))
          ('<' :: kh :: (kt ++ ('>' :: ((s.map xmlEscapeChar).flatten
              ++ ('<' :: '/' :: (k ++ ('>' :: ((d.map xmlElemStr).flatten
                ++ (("</config>".data)))))))))) = false := by
        rw [show (("</config>".data) : Str)
            = '<' :: '/' :: ('c' :: 'o' :: 'n' :: 'f' :: 'i' :: 'g' :: '>' :: []) from by decide]
        have hne : (decide ('/' = kh)) = false := by
          simp only [decide_eq_false_iff_not]
          intro he
          rw [← he] at hkh
          exact absurd hkh (by decide)
        simp [isPre, hne]
      simp only [parseXChildren]
      rw [hx, if_neg (by simp [hpre])]
      rw [← hx, parseXChild_print k s hk1 hk2 hstext]
      dsimp only
      rw [ih (acc ++ [(k, PyVal.vstr s)]) f
        (fun x hxm => hvalid x (List.mem_cons_of_mem _ hxm)) (by simp at hfuel ⊢; omega)]
      simp

theorem xmlParse_format (d : Doc) (h : validXmlDoc d) :
    ∃ t, xmlFormat d = some t ∧ xmlParse t = some d := by
  have hmap : mapO (fun kv => (pyStrVal? kv.2).map (xmlElem kv.1)) d
      = some (d.map xmlElemStr) := by
    apply mapO_eq_map
    intro kv hkv
    obtain ⟨_, s, hvs, _⟩ := h.2 kv hkv
    obtain ⟨k1, v1⟩ := kv
    simp only at hvs
    subst hvs
    rfl
  cases d with
  | nil =>
    refine ⟨(("<config />".data)), ?_, by decide⟩
    unfold xmlFormat
    rw [hmap]
    rfl
  | cons kv0 d0 =>
    refine ⟨(("<config>".data)) ++ (((kv0 :: d0).map xmlElemStr).flatten
      ++ (("</config>".data))), ?_, ?_⟩
    · unfold xmlFormat
      rw [hmap]
      simp
    · have hne : ((("<config>".data)) ++ (((kv0 :: d0).map xmlElemStr).flatten
          ++ (("</config>".data))) : Str) ≠ (("<config />".data)) := by
        intro he
        have h8 : ((("<config>".data)) ++ (((kv0 :: d0).map xmlElemStr).flatten
            ++ (("</config>".data))) : Str).take 8 = (("<config>".data) : Str) := by
          rw [show (8 : Nat) = (("<config>".data) : Str).length from by decide]
          exact List.take_left _ _
        rw [he] at h8
        exact absurd h8 (by decide)
      unfold xmlParse
      rw [if_neg hne]
      rw [if_pos (isPre_append _ _)]
      rw [show ((("<config>".data)) ++ (((kv0 :: d0).map xmlElemStr).flatten
          ++ (("</config>".data))) : Str).drop 8
          = ((kv0 :: d0).map xmlElemStr).flatten ++ (("</config>".data)) from by
        rw [show (8 : Nat) = (("<config>".data) : Str).length from by decide]
        exact List.drop_left _ _]
      rw [parseXChildren_print (kv0 :: d0) [] _ h.2 ?_]
      · simp
      · have hflat : (kv0 :: d0).length
            ≤ (((kv0 :: d0).map xmlElemStr).flatten).length := by
          have := flatten_len_ge ((kv0 :: d0).map xmlElemStr) (by
            intro x hx
            obtain ⟨kv, hkv, hkveq⟩ := List.mem_map.mp hx
            obtain ⟨_, s, hvs, hst⟩ := h.2 kv hkv
            obtain ⟨k1, v1⟩ := kv
            simp only at hvs
            subst hvs
            rw [← hkveq]
            show xmlElem k1 s ≠ []
            unfold xmlElem
            rw [if_neg hst.1]
            simp)
          simpa using this
        simp only [List.length_append, List.length_cons]
        simp only [List.length_cons] at hflat
        omega

/-- C7 counterexample: in the xml format the encoder coerces every value
through `str`, so the integer 5 decodes back as the string `"5"`: the
round-trip law fails for a valid document with a non-string value, and
xml is not covered by the claim's jinja2-only exception. -/
theorem claim_C7_counterexample :
    (format_config_content (fun _ => true) [((("a".data) : Str), PyVal.vint 5)] "xml").bind
      (fun t => parse_config_content (fun _ => true) (fun _ => []) t "xml")
      = some [((("a".data) : Str), PyVal.vstr ("5".data))]
    ∧ ([((("a".data) : Str), PyVal.vstr ("5".data))] : Doc)
      ≠ [((("a".data) : Str), PyVal.vint 5)] := by
  constructor
  · decide
  · decide

/-- C7 amended: `decode (encode d f) = d` holds for json and toml on
valid documents of the modelled fragment, for xml only on documents
whose values are all non-empty strings (any other value is coerced
through `str` on encode and comes back as a string or null), and for
jinja2 the round-trip preserves the `template` field exactly and
recomputes `variables` deterministically from it via the
library-abstracted `jvars`. -/
theorem claim_C7 :
    (∀ (jvalid : Str → Bool) (jvars : Str → List Str) (d : Doc), validJsonDoc d →
      (format_config_content jvalid d "json").bind
        (fun t => parse_config_content jvalid jvars t "json") = some d)
    ∧ (∀ (jvalid : Str → Bool) (jvars : Str → List Str) (d : Doc), validTomlDoc d →
      (format_config_content jvalid d "toml").bind
        (fun t => parse_config_content jvalid jvars t "toml") = some d)
    ∧ (∀ (jvalid : Str → Bool) (jvars : Str → List Str) (d : Doc), validXmlDoc d →
      (format_config_content jvalid d "xml").bind
        (fun t => parse_config_content jvalid jvars t "xml") = some d)
    ∧ (∀ (jvalid : Str → Bool) (jvars : Str → List Str) (d : Doc) (t : Str),
      lookupDoc d templateKey = some (PyVal.vstr t) → jvalid t = true →
      (format_config_content jvalid d "jinja2").bind
        (fun c => parse_config_content jvalid jvars c "jinja2")
        = some [(templateKey, PyVal.vstr t), (varsKey, PyVal.vlist (jvars t))]) := by
  refine ⟨?_, ?_, ?_, ?_⟩
  · intro jvalid jvars d hd
    obtain ⟨t, hdump, hload⟩ := jsonLoads_dumps d hd
    unfold format_config_content
    rw [if_pos (by decide), if_pos rfl, hdump]
    show parse_config_content jvalid jvars t "json" = some d
    unfold parse_config_content
    rw [if_pos rfl]
    exact hload
  · intro jvalid jvars d hd
    obtain ⟨t, hdump, hload⟩ := tomlLoads_dumps d hd
    unfold format_config_content
    rw [if_pos (by decide), if_neg (by decide), if_pos rfl, hdump]
    show parse_config_content jvalid jvars t "toml" = some d
    unfold parse_config_content
    rw [if_neg (by decide), if_pos rfl]
    exact hload
  · intro jvalid jvars d hd
    obtain ⟨t, hdump, hload⟩ := xmlParse_format d hd
    unfold format_config_content
    rw [if_pos (by decide), if_neg (by decide), if_neg (by decide), if_pos rfl, hdump]
    show parse_config_content jvalid jvars t "xml" = some d
    unfold parse_config_content
    rw [if_neg (by decide), if_neg (by decide), if_pos rfl]
    exact hload
  · intro jvalid jvars d t hlook hjv
    unfold format_config_content
    rw [if_pos (by decide), if_neg (by decide), if_neg (by decide), if_neg (by decide),
      if_pos rfl, hlook]
    dsimp only
    rw [if_pos hjv]
    show parse_config_content jvalid jvars t "jinja2" = _
    unfold parse_config_content
    rw [if_neg (by decide), if_neg (by decide), if_neg (by decide), if_pos rfl, if_pos hjv]

/-- C7 witness: one concrete round-trip per format. -/
theorem claim_C7_witness :
    ((format_config_content (fun _ => true) [((("a".data) : Str), PyVal.vint 5)] "json").bind
      (fun t => parse_config_content (fun _ => true) (fun _ => []) t "json")
      = some [((("a".data) : Str), PyVal.vint 5)])
    ∧ ((format_config_content (fun _ => true) [((("k".data) : Str), PyVal.vstr ("hi".data))] "toml").bind
      (fun t => parse_config_content (fun _ => true) (fun _ => []) t "toml")
      = some [((("k".data) : Str), PyVal.vstr ("hi".data))])
    ∧ ((format_config_content (fun _ => true) [((("a".data) : Str), PyVal.vstr ("x".data))] "xml").bind
      (fun t => parse_config_content (fun _ => true) (fun _ => []) t "xml")
      = some [((("a".data) : Str), PyVal.vstr ("x".data))])
    ∧ ((format_config_content (fun _ => true)
        [(templateKey, PyVal.vstr ("name: \x7b\x7b name \x7d\x7d".data))] "jinja2").bind
      (fun c => parse_config_content (fun _ => true) (fun _ => ["name".data]) c "jinja2")
      = some [(templateKey, PyVal.vstr ("name: \x7b\x7b name \x7d\x7d".data)),
              (varsKey, PyVal.vlist ["name".data])]) :=
  ⟨claim_C7.1 (fun _ => true) (fun _ => []) _ (by decide),
    (claim_C7.2.1) (fun _ => true) (fun _ => []) _ (by decide),
    (claim_C7.2.2.1) (fun _ => true) (fun _ => []) _ (by decide),
    (claim_C7.2.2.2) (fun _ => true) (fun _ => ["name".data]) _ _ (by decide) rfl⟩
